import Mathlib

/-!
Verification development for a Sudoku solver (Rust, `src/main.rs`).

The solver represents the 81-cell grid as an array of per-cell states
(`Assigned v` or `Unassigned domain`), propagates constraints with a
specialized AC-3 loop (`ac3`), and searches with recursive backtracking
(`backtrack`).  This file gives a shallow embedding of that program:

* `Variable`, `Assignment` model `enum Variable` and `struct Assignment([Variable; 81])`;
  a Rust `HashSet<u8>` domain is modelled as a `List ℕ` whose order stands for
  the hash set's iteration order (which Rust fixes per set instance but does
  not fix across program runs).
* `generateConstraints`, `assignedVariables`, `unassignedVariable` are direct
  translations of the functions of the same names.
* `ac3Loop`/`ac3` model the worklist loop of `fn ac3`; the worklist is a list
  popped at the head, so the initial queue is the reversed
  `assigned_variables` vector (Rust pops at the back of the `Vec`).
* `backtrack`/`tryValues` model `fn backtrack`; `tryValues` is the
  `for val in domain` loop.  Errors are `Except String` carrying the exact
  `bail!` messages ("inconsistent", "failure").
-/

set_option maxHeartbeats 1000000
set_option maxRecDepth 100000

namespace Sudoku

/-- `enum Variable { Assigned(u8), Unassigned(Domain) }`.  The domain list
models the `HashSet<u8>`; the list order models the set's iteration order. -/
inductive Variable where
  | Assigned (v : ℕ)
  | Unassigned (d : List ℕ)
deriving DecidableEq, Repr

/-- `struct Assignment([Variable; 81])`.  The 81-length requirement is carried
as a hypothesis where a claim needs it. -/
abbrev Assignment := List Variable

/-- Cell lookup `assignment[i]`.  Out-of-range indices (never used by the
program) read as an empty-domain unassigned cell. -/
def cellAt (g : Assignment) (i : ℕ) : Variable := g.getD i (Variable.Unassigned [])

/-- Whether a cell is in the `Unassigned` state. -/
def isUnassigned : Variable → Bool
  | .Assigned _ => false
  | .Unassigned _ => true

/-- Number of unassigned cells; the termination measure of the search. -/
def unassignedCount (g : Assignment) : ℕ := (g.filter isUnassigned).length

/-- Worker for `assigned_variables`, carrying the running index of
`.iter().enumerate()`. -/
def assignedVariablesFrom (i : ℕ) : List Variable → List (ℕ × ℕ)
  | [] => []
  | .Assigned v :: rest => (i, v) :: assignedVariablesFrom (i + 1) rest
  | .Unassigned _ :: rest => assignedVariablesFrom (i + 1) rest

/-- `fn assigned_variables(&self) -> Vec<(usize, u8)>`: the `(index, value)`
pairs of all currently assigned cells, in index order. -/
def assignedVariables (g : Assignment) : List (ℕ × ℕ) := assignedVariablesFrom 0 g

/-- Worker for `unassigned_variable`, carrying the running index. -/
def unassignedVariableFrom (i : ℕ) : List Variable → Option (ℕ × List ℕ)
  | [] => none
  | .Assigned _ :: rest => unassignedVariableFrom (i + 1) rest
  | .Unassigned d :: _ => some (i, d)

/-- `fn unassigned_variable(&self) -> Option<(usize, &Domain)>`: the first
unassigned cell in scan order, with its candidate domain. -/
def unassignedVariable (g : Assignment) : Option (ℕ × List ℕ) := unassignedVariableFrom 0 g

/-- `fn generate_constraints(x: usize) -> Vec<usize>`: the indices that share a
row, column, or 3x3 box with `x`, in the order the Rust code pushes them
(column neighbour then row neighbour per offset, then the four box cells in
neither the same row nor the same column). -/
def generateConstraints (x : ℕ) : List ℕ :=
  let col := x % 9
  let row := x / 9
  let rowColPart := (List.range 9).flatMap (fun offset =>
    (if x ≠ col + offset * 9 then [col + offset * 9] else []) ++
    (if x ≠ row * 9 + offset then [row * 9 + offset] else []))
  let boxBaseCol := 3 * (col / 3)
  let boxBaseRow := 3 * (row / 3)
  let boxPart := (List.range 3).flatMap (fun colOffset =>
    if boxBaseCol + colOffset = col then [] else
      (List.range 3).flatMap (fun rowOffset =>
        if boxBaseRow + rowOffset = row then [] else
          if x ≠ (boxBaseRow + rowOffset) * 9 + boxBaseCol + colOffset then
            [(boxBaseRow + rowOffset) * 9 + boxBaseCol + colOffset]
          else []))
  rowColPart ++ boxPart

/-- The body of `ac3`'s inner `for y in generate_constraints(x)` loop, for one
popped pair `(x, val)`.  Returns the updated grid together with the list of
newly assigned pairs pushed onto the worklist, in push order.  An assigned
neighbour equal to `val` is the `bail!("inconsistent")` case.  For an
unassigned neighbour the Rust code always removes `val` from the domain and,
if the removal happened and left exactly one candidate, converts the cell to
`Assigned` and pushes it. -/
def processNeighbors (val : ℕ) (g : Assignment) : List ℕ → Except String (Assignment × List (ℕ × ℕ))
  | [] => .ok (g, [])
  | y :: ys =>
    match cellAt g y with
    | .Assigned a =>
      if a = val then .error ("inconsistent")
      else processNeighbors val g ys
    | .Unassigned d =>
      if val ∈ d ∧ (d.erase val).length = 1 then
        match processNeighbors val (g.set y (.Assigned ((d.erase val).headD 0))) ys with
        | .error e => .error e
        | .ok (g2, pushed) => .ok (g2, (y, (d.erase val).headD 0) :: pushed)
      else processNeighbors val (g.set y (.Unassigned (d.erase val))) ys

theorem cellAt_cons_zero (a : Variable) (g : Assignment) : cellAt (a :: g) 0 = a := rfl

theorem cellAt_cons_succ (a : Variable) (g : Assignment) (n : ℕ) :
    cellAt (a :: g) (n + 1) = cellAt g n := rfl

theorem unassignedCount_cons (v : Variable) (g : Assignment) :
    unassignedCount (v :: g) = (if isUnassigned v then 1 else 0) + unassignedCount g := by
  simp only [unassignedCount, List.filter_cons]
  split <;> simp <;> omega

theorem unassignedCount_set_assigned (g : Assignment) (y v : ℕ) :
    unassignedCount (g.set y (.Assigned v)) ≤ unassignedCount g := by
  induction g generalizing y with
  | nil => simp [List.set]
  | cons a rest ih =>
    cases y with
    | zero =>
      simp only [List.set, unassignedCount_cons]
      cases a <;> simp [isUnassigned]
    | succ n =>
      simp only [List.set, unassignedCount_cons]
      have := ih n
      omega

theorem unassignedCount_set_assigned_lt (g : Assignment) (y v : ℕ) (d : List ℕ)
    (h : cellAt g y = .Unassigned d) (hy : y < g.length) :
    unassignedCount (g.set y (.Assigned v)) < unassignedCount g := by
  induction g generalizing y with
  | nil => simp at hy
  | cons a rest ih =>
    cases y with
    | zero =>
      rw [cellAt_cons_zero] at h
      subst h
      simp only [List.set, unassignedCount_cons]
      simp [isUnassigned]
    | succ n =>
      rw [cellAt_cons_succ] at h
      simp only [List.set, unassignedCount_cons]
      have hn : n < rest.length := by simpa using hy
      have := ih n h hn
      omega

theorem unassignedCount_set_unassigned (g : Assignment) (y : ℕ) (d d2 : List ℕ)
    (hd : cellAt g y = .Unassigned d) :
    unassignedCount (g.set y (.Unassigned d2)) = unassignedCount g := by
  induction g generalizing y with
  | nil => simp [List.set]
  | cons a rest ih =>
    cases y with
    | zero =>
      rw [cellAt_cons_zero] at hd
      subst hd
      simp only [List.set, unassignedCount_cons]
      simp [isUnassigned]
    | succ n =>
      rw [cellAt_cons_succ] at hd
      simp only [List.set, unassignedCount_cons]
      have := ih n hd
      omega

/-- An unassigned cell (with respect to `cellAt`) with a nonempty domain is
genuinely inside the list. -/
theorem lt_length_of_cellAt_unassigned (g : Assignment) (y : ℕ) (d : List ℕ)
    (h : cellAt g y = .Unassigned d) (hd : d ≠ []) : y < g.length := by
  by_contra hy
  push_neg at hy
  have : g.getD y (Variable.Unassigned []) = Variable.Unassigned [] := by
    rw [List.getD_eq_default]
    omega
  rw [cellAt] at h
  rw [this] at h
  injection h with h2
  exact hd h2.symm

theorem processNeighbors_measure (val : ℕ) (g : Assignment) (ys : List ℕ)
    (g2 : Assignment) (pushed : List (ℕ × ℕ))
    (h : processNeighbors val g ys = .ok (g2, pushed)) :
    2 * unassignedCount g2 + pushed.length ≤ 2 * unassignedCount g := by
  induction ys generalizing g g2 pushed with
  | nil =>
    simp only [processNeighbors] at h
    injection h with h
    injection h with h1 h2
    subst h1; subst h2
    simp
  | cons y ys ih =>
    simp only [processNeighbors] at h
    split at h
    next a ha =>
      split at h
      · exact absurd h (by simp)
      · have := ih g g2 pushed h
        omega
    next d hd =>
      split at h
      next hcond =>
        split at h
        next => exact absurd h (by simp)
        next g3 pushed2 heq =>
          injection h with h
          injection h with h1 h2
          subst h1
          have hlen : y < g.length := by
            apply lt_length_of_cellAt_unassigned g y d hd
            intro hnil
            rw [hnil] at hcond
            simp at hcond
          have hlt := unassignedCount_set_assigned_lt g y ((d.erase val).headD 0) d hd hlen
          have := ih _ _ _ heq
          subst h2
          simp only [List.length_cons]
          omega
      next =>
        have hle := unassignedCount_set_unassigned g y d (d.erase val) hd
        have := ih _ g2 pushed h
        omega

/-- The `while let Some((x, val)) = queue.pop()` loop of `fn ac3`.  The list
head is the top of the worklist; the pairs pushed during one iteration are
prepended in reverse so that the most recently pushed pair is popped first,
exactly as with the Rust `Vec`. -/
def ac3Loop (g : Assignment) (queue : List (ℕ × ℕ)) : Except String Assignment :=
  match queue with
  | [] => .ok g
  | (x, val) :: rest =>
    match h : processNeighbors val g (generateConstraints x) with
    | .error e => .error e
    | .ok (g2, pushed) => ac3Loop g2 (pushed.reverse ++ rest)
termination_by 2 * unassignedCount g + queue.length
decreasing_by
  have := processNeighbors_measure val g (generateConstraints x) g2 pushed h
  simp only [List.length_append, List.length_reverse, List.length_cons]
  omega

/-- `fn ac3(mut assignment: Assignment) -> Result<Assignment>`: seeds the
worklist with every currently assigned `(index, value)` pair and runs the loop.
The Rust `Vec` is popped from the back, so the head-popped list starts from the
reversed vector. -/
def ac3 (g : Assignment) : Except String Assignment :=
  ac3Loop g (assignedVariables g).reverse

theorem unassignedVariableFrom_some_spec (l : List Variable) :
    ∀ (i x : ℕ) (d : List ℕ), unassignedVariableFrom i l = some (x, d) →
      i ≤ x ∧ x - i < l.length ∧ cellAt l (x - i) = .Unassigned d := by
  induction l with
  | nil => intro i x d h; simp [unassignedVariableFrom] at h
  | cons a rest ih =>
    intro i x d h
    cases a with
    | Assigned v =>
      simp only [unassignedVariableFrom] at h
      obtain ⟨h1, h2, h3⟩ := ih (i + 1) x d h
      refine ⟨by omega, by simp; omega, ?_⟩
      have hx : x - i = (x - (i + 1)) + 1 := by omega
      rw [hx, cellAt_cons_succ]
      exact h3
    | Unassigned d2 =>
      simp only [unassignedVariableFrom] at h
      injection h with h
      injection h with h1 h2
      subst h1; subst h2
      refine ⟨le_refl _, by simp, ?_⟩
      simp [cellAt_cons_zero]

/-- The index returned by `unassigned_variable` really is an unassigned cell. -/
theorem unassignedVariable_some_spec (g : Assignment) (x : ℕ) (d : List ℕ)
    (h : unassignedVariable g = some (x, d)) :
    x < g.length ∧ cellAt g x = .Unassigned d := by
  obtain ⟨_, h2, h3⟩ := unassignedVariableFrom_some_spec g 0 x d h
  simpa using ⟨h2, h3⟩

/-- A successful `ac3` run never increases the number of unassigned cells. -/
theorem ac3Loop_count_le (g : Assignment) (queue : List (ℕ × ℕ)) (g2 : Assignment)
    (h : ac3Loop g queue = .ok g2) : unassignedCount g2 ≤ unassignedCount g := by
  induction g, queue using ac3Loop.induct with
  | case1 g =>
    rw [ac3Loop] at h
    injection h with h
    subst h
    exact le_refl _
  | case2 g x val rest e heq =>
    rw [ac3Loop] at h
    split at h
    · exact absurd h (by simp)
    next g4 pushed2 heq2 =>
      rw [heq] at heq2
      cases heq2
  | case3 g x val rest g3 pushed heq ih =>
    rw [ac3Loop] at h
    split at h
    next e heq2 =>
      rw [heq] at heq2
      cases heq2
    next g4 pushed2 heq2 =>
      rw [heq] at heq2
      injection heq2 with heq2
      injection heq2 with hg hp
      subst hg; subst hp
      have h1 := ih h
      have h2 := processNeighbors_measure val g (generateConstraints x) g3 pushed heq
      omega

theorem ac3_count_le (g g2 : Assignment) (h : ac3 g = .ok g2) :
    unassignedCount g2 ≤ unassignedCount g :=
  ac3Loop_count_le g _ g2 h

theorem ac3Loop_cons_error (g : Assignment) (x val : ℕ) (rest : List (ℕ × ℕ)) (e : String)
    (heq : processNeighbors val g (generateConstraints x) = .error e) :
    ac3Loop g ((x, val) :: rest) = .error e := by
  rw [ac3Loop]
  split
  next e2 heq2 =>
    rw [heq] at heq2
    injection heq2 with h2
    rw [h2]
  next g4 pushed2 heq2 =>
    rw [heq] at heq2
    cases heq2

theorem ac3Loop_cons_ok (g : Assignment) (x val : ℕ) (rest : List (ℕ × ℕ))
    (g2 : Assignment) (pushed : List (ℕ × ℕ))
    (heq : processNeighbors val g (generateConstraints x) = .ok (g2, pushed)) :
    ac3Loop g ((x, val) :: rest) = ac3Loop g2 (pushed.reverse ++ rest) := by
  rw [ac3Loop]
  split
  next e2 heq2 =>
    rw [heq] at heq2
    cases heq2
  next g4 pushed2 heq2 =>
    rw [heq] at heq2
    injection heq2 with heq2
    injection heq2 with hg hp
    rw [hg, hp]

mutual

/-- `fn backtrack(assignment, called, failed) -> Result<(Assignment, i32, i32)>`:
increments `called`, returns the grid unchanged on a fully assigned grid, and
otherwise iterates over the candidate domain of the first unassigned cell.
The final `bail!("failure")` of the Rust loop lives in `tryValues`. -/
def backtrack (g : Assignment) (called failed : ℕ) : Except String (Assignment × ℕ × ℕ) :=
  match h : unassignedVariable g with
  | none => .ok (g, called + 1, failed)
  | some (x, domain) =>
    tryValues domain x g
      ⟨(unassignedVariable_some_spec g x domain h).1,
        domain, (unassignedVariable_some_spec g x domain h).2⟩
      (called + 1) failed
termination_by (unassignedCount g, 1, 0)

/-- The `for val in domain` loop of `fn backtrack`: clone the grid, assign the
candidate, run `ac3`; on propagation failure try the next candidate, on
recursion failure bump `failed` and try the next candidate, on success return
immediately.  `hx` is a proof-only argument recording that `x` came from
`unassigned_variable`; it is needed for termination and does not affect
computation. -/
def tryValues (vals : List ℕ) (x : ℕ) (g : Assignment)
    (hx : x < g.length ∧ ∃ d0, cellAt g x = Variable.Unassigned d0)
    (called failed : ℕ) : Except String (Assignment × ℕ × ℕ) :=
  match vals with
  | [] => .error ("failure")
  | val :: rest =>
    match hac : ac3 (g.set x (.Assigned val)) with
    | .error _ => tryValues rest x g hx called failed
    | .ok g2 =>
      match backtrack g2 called failed with
      | .ok res => .ok res
      | .error _ => tryValues rest x g hx called (failed + 1)
termination_by (unassignedCount g, 0, vals.length)
decreasing_by
  all_goals simp_wf
  all_goals
    try (obtain ⟨hxlen, hd⟩ := hx
         obtain ⟨d0, hd0⟩ := hd
         have h1 := ac3_count_le _ _ hac
         have h2 : unassignedCount (g.set x (Variable.Assigned y)) < unassignedCount g :=
           unassignedCount_set_assigned_lt g x y d0 hd0 hxlen)
  all_goals first
    | exact Prod.Lex.right _ (Prod.Lex.right _ (by omega))
    | exact Prod.Lex.left _ _ (by omega)

end

theorem backtrack_none (g : Assignment) (c f : ℕ) (hu : unassignedVariable g = none) :
    backtrack g c f = .ok (g, c + 1, f) := by
  rw [backtrack]
  split
  · rfl
  next x domain heq =>
    rw [hu] at heq
    cases heq

theorem backtrack_some (g : Assignment) (c f x : ℕ) (domain : List ℕ)
    (hu : unassignedVariable g = some (x, domain))
    (hx : x < g.length ∧ ∃ d0, cellAt g x = Variable.Unassigned d0) :
    backtrack g c f = tryValues domain x g hx (c + 1) f := by
  rw [backtrack]
  split
  next heq =>
    rw [hu] at heq
    cases heq
  next x2 domain2 heq =>
    rw [hu] at heq
    injection heq with heq
    injection heq with h1 h2
    subst h1; subst h2
    rfl

theorem tryValues_nil (x : ℕ) (g : Assignment) (hx : _) (c f : ℕ) :
    tryValues [] x g hx c f = .error ("failure") := by
  rw [tryValues]

theorem tryValues_cons_error (val : ℕ) (rest : List ℕ) (x : ℕ) (g : Assignment)
    (hx : _) (c f : ℕ) (e : String) (hac : ac3 (g.set x (.Assigned val)) = .error e) :
    tryValues (val :: rest) x g hx c f = tryValues rest x g hx c f := by
  rw [tryValues]
  split
  next heq => rfl
  next g2 heq =>
    rw [hac] at heq
    cases heq

theorem tryValues_cons_ok_ok (val : ℕ) (rest : List ℕ) (x : ℕ) (g : Assignment)
    (hx : _) (c f : ℕ) (g2 : Assignment) (res : Assignment × ℕ × ℕ)
    (hac : ac3 (g.set x (.Assigned val)) = .ok g2)
    (hb : backtrack g2 c f = .ok res) :
    tryValues (val :: rest) x g hx c f = .ok res := by
  rw [tryValues]
  split
  next heq =>
    rw [hac] at heq
    cases heq
  next g3 heq =>
    rw [hac] at heq
    injection heq with heq
    subst heq
    rw [hb]

theorem tryValues_cons_ok_error (val : ℕ) (rest : List ℕ) (x : ℕ) (g : Assignment)
    (hx : _) (c f : ℕ) (g2 : Assignment) (e : String)
    (hac : ac3 (g.set x (.Assigned val)) = .ok g2)
    (hb : backtrack g2 c f = .error e) :
    tryValues (val :: rest) x g hx c f = tryValues rest x g hx c (f + 1) := by
  rw [tryValues]
  split
  next heq =>
    rw [hac] at heq
    cases heq
  next g3 heq =>
    rw [hac] at heq
    injection heq with heq
    subst heq
    rw [hb]

/-!
Functions defined by well-founded recursion do not reduce inside the kernel,
so concrete runs of `ac3` and `backtrack` are evaluated through structurally
recursive fuel-indexed twins, proved equal to the originals whenever the fuel
dominates the termination measure.
-/

/-- Fuel-indexed twin of `ac3Loop` (structural recursion on `fuel`). -/
def ac3LoopF (fuel : ℕ) (g : Assignment) (queue : List (ℕ × ℕ)) : Except String Assignment :=
  match fuel with
  | 0 => .ok g
  | fuel + 1 =>
    match queue with
    | [] => .ok g
    | (x, val) :: rest =>
      match processNeighbors val g (generateConstraints x) with
      | .error e => .error e
      | .ok (g2, pushed) => ac3LoopF fuel g2 (pushed.reverse ++ rest)

/-- Fuel-indexed twin of `ac3`, with fuel dominating the loop measure. -/
def ac3F (g : Assignment) : Except String Assignment :=
  ac3LoopF (2 * unassignedCount g + (assignedVariables g).length + 1) g
    (assignedVariables g).reverse

theorem ac3LoopF_eq (fuel : ℕ) : ∀ (g : Assignment) (queue : List (ℕ × ℕ)),
    2 * unassignedCount g + queue.length ≤ fuel → ac3LoopF fuel g queue = ac3Loop g queue := by
  induction fuel with
  | zero =>
    intro g queue h
    have hq : queue = [] := by
      cases queue with
      | nil => rfl
      | cons a rest => simp at h
    subst hq
    rw [ac3Loop]
    rfl
  | succ fuel ih =>
    intro g queue h
    cases queue with
    | nil =>
      rw [ac3Loop]
      rfl
    | cons p rest =>
      obtain ⟨x, val⟩ := p
      cases hpn : processNeighbors val g (generateConstraints x) with
      | error e =>
        rw [ac3Loop_cons_error g x val rest e hpn]
        simp only [ac3LoopF]
        rw [hpn]
      | ok pr =>
        obtain ⟨g2, pushed⟩ := pr
        rw [ac3Loop_cons_ok g x val rest g2 pushed hpn]
        simp only [ac3LoopF]
        rw [hpn]
        apply ih
        have hm := processNeighbors_measure val g (generateConstraints x) g2 pushed hpn
        simp only [List.length_append, List.length_reverse, List.length_cons] at h ⊢
        omega

theorem ac3F_eq (g : Assignment) : ac3F g = ac3 g := by
  rw [ac3F, ac3]
  apply ac3LoopF_eq
  simp

/-- The `for val in domain` loop of the fuel-indexed search; the search
function for recursive calls is passed in as `bt`. -/
def tryValuesF (bt : Assignment → ℕ → ℕ → Except String (Assignment × ℕ × ℕ)) :
    List ℕ → ℕ → Assignment → ℕ → ℕ → Except String (Assignment × ℕ × ℕ)
  | [], _, _, _, _ => .error ("failure")
  | val :: rest, x, g, called, failed =>
    match ac3F (g.set x (.Assigned val)) with
    | .error _ => tryValuesF bt rest x g called failed
    | .ok g2 =>
      match bt g2 called failed with
      | .ok res => .ok res
      | .error _ => tryValuesF bt rest x g called (failed + 1)

/-- Fuel-indexed twin of `backtrack` (structural recursion on `fuel`). -/
def backtrackF : ℕ → Assignment → ℕ → ℕ → Except String (Assignment × ℕ × ℕ)
  | 0, _, _, _ => .error ("")
  | fuel + 1, g, called, failed =>
    match unassignedVariable g with
    | none => .ok (g, called + 1, failed)
    | some (x, domain) => tryValuesF (backtrackF fuel) domain x g (called + 1) failed

theorem tryValuesF_eq (bt : Assignment → ℕ → ℕ → Except String (Assignment × ℕ × ℕ))
    (vals : List ℕ) (x : ℕ) (g : Assignment)
    (hx : x < g.length ∧ ∃ d0, cellAt g x = Variable.Unassigned d0)
    (hbt : ∀ g2 c2 f2, unassignedCount g2 < unassignedCount g →
      bt g2 c2 f2 = backtrack g2 c2 f2) :
    ∀ c f, tryValuesF bt vals x g c f = tryValues vals x g hx c f := by
  induction vals with
  | nil =>
    intro c f
    rw [tryValues_nil]
    rfl
  | cons val rest ih =>
    intro c f
    cases hac : ac3 (g.set x (.Assigned val)) with
    | error e =>
      rw [tryValues_cons_error val rest x g hx c f e hac]
      have hacF : ac3F (g.set x (.Assigned val)) = .error e := by rw [ac3F_eq]; exact hac
      simp only [tryValuesF]
      rw [hacF]
      exact ih c f
    | ok g2 =>
      have hlt : unassignedCount g2 < unassignedCount g := by
        obtain ⟨hxlen, d0, hd0⟩ := hx
        have h1 := ac3_count_le _ _ hac
        have h2 := unassignedCount_set_assigned_lt g x val d0 hd0 hxlen
        omega
      have hacF : ac3F (g.set x (.Assigned val)) = .ok g2 := by rw [ac3F_eq]; exact hac
      cases hb : backtrack g2 c f with
      | ok res =>
        rw [tryValues_cons_ok_ok val rest x g hx c f g2 res hac hb]
        simp only [tryValuesF]
        rw [hacF]
        simp only [hbt g2 c f hlt, hb]
      | error e =>
        rw [tryValues_cons_ok_error val rest x g hx c f g2 e hac hb]
        simp only [tryValuesF]
        rw [hacF]
        simp only [hbt g2 c f hlt, hb]
        exact ih c (f + 1)

theorem backtrackF_eq (fuel : ℕ) : ∀ (g : Assignment) (c f : ℕ),
    unassignedCount g < fuel → backtrackF fuel g c f = backtrack g c f := by
  induction fuel with
  | zero => intro g c f h; exact absurd h (Nat.not_lt_zero _)
  | succ fuel ih =>
    intro g c f h
    cases hu : unassignedVariable g with
    | none =>
      rw [backtrack_none g c f hu]
      simp only [backtrackF]
      rw [hu]
    | some p =>
      obtain ⟨x, domain⟩ := p
      have hxs := unassignedVariable_some_spec g x domain hu
      rw [backtrack_some g c f x domain hu ⟨hxs.1, domain, hxs.2⟩]
      simp only [backtrackF]
      rw [hu]
      apply tryValuesF_eq
      intro g2 c2 f2 hlt
      apply ih
      omega

/-!  Predicates used by the specification statements. -/

/-- How one cell can change across propagation: unchanged, a shrunk candidate
domain, or a conversion from unassigned to a value of its old domain. -/
def Evolves (g g2 : Assignment) : Prop :=
  ∀ y, cellAt g2 y = cellAt g y ∨
    (∃ d d2, cellAt g y = .Unassigned d ∧ cellAt g2 y = .Unassigned d2 ∧ d2.Sublist d) ∨
    (∃ d w, cellAt g y = .Unassigned d ∧ cellAt g2 y = .Assigned w ∧ w ∈ d)

/-- Cell `x` with value `v` is fully processed: no constraint neighbour is
assigned `v` and no neighbour's candidate domain still contains `v`. -/
def DoneAt (g : Assignment) (x v : ℕ) : Prop :=
  ∀ y ∈ generateConstraints x,
    (∀ w, cellAt g y = .Assigned w → w ≠ v) ∧ (∀ d, cellAt g y = .Unassigned d → v ∉ d)

/-- No two assigned constraint neighbours hold equal values. -/
def NoConflicts (g : Assignment) : Prop :=
  ∀ z w, cellAt g z = .Assigned w →
    ∀ y ∈ generateConstraints z, ∀ w2, cellAt g y = .Assigned w2 → w2 ≠ w

/-- Worklist soundness: every queued pair is currently assigned. -/
def QueueSound (g : Assignment) (queue : List (ℕ × ℕ)) : Prop :=
  ∀ p ∈ queue, cellAt g p.1 = .Assigned p.2

/-- Worklist invariant: every assigned cell is still queued or fully
processed. -/
def QueueInv (g : Assignment) (queue : List (ℕ × ℕ)) : Prop :=
  ∀ z w, cellAt g z = .Assigned w → (z, w) ∈ queue ∨ DoneAt g z w

/-- A cell state whose candidate domain (if any) has no duplicates; every
`HashSet`-backed domain of the program satisfies this. -/
def nodupVar : Variable → Prop
  | .Assigned _ => True
  | .Unassigned d => d.Nodup

instance : DecidablePred nodupVar := fun v =>
  match v with
  | .Assigned _ => isTrue trivial
  | .Unassigned d => inferInstanceAs (Decidable d.Nodup)

/-- All candidate domains of the grid are duplicate-free. -/
def DomainsNodup (g : Assignment) : Prop := ∀ v ∈ g, nodupVar v

/-- The list of Sudoku values. -/
def nineList : List ℕ := [1, 2, 3, 4, 5, 6, 7, 8, 9]

/-- A cell state whose value, or candidate values, lie in 1..9. -/
def rangeVar : Variable → Prop
  | .Assigned v => v ∈ nineList
  | .Unassigned d => ∀ u ∈ d, u ∈ nineList

instance : DecidablePred rangeVar := fun v =>
  match v with
  | .Assigned w => inferInstanceAs (Decidable (w ∈ nineList))
  | .Unassigned d => inferInstanceAs (Decidable (∀ u ∈ d, u ∈ nineList))

/-- All values and candidate values of the grid lie in 1..9. -/
def ValuesInRange (g : Assignment) : Prop := ∀ v ∈ g, rangeVar v

/-- Two cell indices in the same row. -/
def sameRow (x y : ℕ) : Prop := x / 9 = y / 9

/-- Two cell indices in the same column. -/
def sameCol (x y : ℕ) : Prop := x % 9 = y % 9

/-- Two cell indices in the same 3x3 box. -/
def sameBox (x y : ℕ) : Prop := x / 9 / 3 = y / 9 / 3 ∧ x % 9 / 3 = y % 9 / 3

/-- Two cell indices sharing a row, column, or box. -/
def sameUnit (x y : ℕ) : Prop := sameRow x y ∨ sameCol x y ∨ sameBox x y

/-- The nine cell indices of row `r`. -/
def rowIndices (r : ℕ) : List ℕ := (List.range 9).map (fun c => 9 * r + c)

/-- The nine cell indices of column `c`. -/
def colIndices (c : ℕ) : List ℕ := (List.range 9).map (fun r => 9 * r + c)

/-- The nine cell indices of box `b` (boxes numbered row-major). -/
def boxIndices (b : ℕ) : List ℕ :=
  (List.range 9).map (fun k => 27 * (b / 3) + 9 * (k / 3) + 3 * (b % 3) + k % 3)

/-- The assigned value of a cell, `0` if unassigned. -/
def valueAt (g : Assignment) (i : ℕ) : ℕ :=
  match cellAt g i with
  | .Assigned v => v
  | .Unassigned _ => 0

/-- The values of a unit's cells. -/
def unitValues (g : Assignment) (u : List ℕ) : List ℕ := u.map (valueAt g)

/-- Every row, column, and box holds each of 1..9 exactly once. -/
def ValidSudoku (g : Assignment) : Prop :=
  (∀ r < 9, List.Perm (unitValues g (rowIndices r)) nineList) ∧
  (∀ c < 9, List.Perm (unitValues g (colIndices c)) nineList) ∧
  (∀ b < 9, List.Perm (unitValues g (boxIndices b)) nineList)

/-- A full valid solution of the puzzle `g`: same 81-cell shape, every cell
assigned, every original assignment kept, and all units valid. -/
def ValidCompletion (g sol : Assignment) : Prop :=
  sol.length = g.length ∧ unassignedVariable sol = none ∧
    (∀ i v, cellAt g i = .Assigned v → cellAt sol i = .Assigned v) ∧ ValidSudoku sol

/-!  The I/O adapters of `main.rs`, modelled without the `IO` layer. -/

/-- One cell of `impl fmt::Display for Assignment`: an assigned cell prints its
digit; an unassigned cell hits `panic!("tried to print unassigned value")`,
modelled as `none`. -/
def renderCell : Variable → Option String
  | .Assigned v => some (Nat.repr v)
  | .Unassigned _ => none

/-- The `for (i, v) in self.0.iter().enumerate()` loop of `Display::fmt`:
a newline before every ninth cell except the first. -/
def renderFrom (i : ℕ) : List Variable → Option String
  | [] => some ("")
  | v :: rest =>
    match renderCell v with
    | none => none
    | some c =>
      match renderFrom (i + 1) rest with
      | none => none
      | some s => some ((if i % 9 = 0 ∧ i ≠ 0 then "\n" else "") ++ (c ++ s))

/-- `Display for Assignment`, as a total function returning `none` where the
Rust code panics. -/
def render (g : Assignment) : Option String := renderFrom 0 g

/-- Join row strings with newline separators (first row unprefixed). -/
def joinTail : List String → String
  | [] => ""
  | r :: rest => ("\n" ++ r) ++ joinTail rest

/-- The 9-row textual form of a grid: rows joined by newlines. -/
def joinRows : List String → String
  | [] => ""
  | r :: rest => r ++ joinTail rest

/-- `c.to_digit(10)` of the Rust parser: defined for the ASCII digit
codepoints 48..57 (exactly the characters `to_digit(10)` accepts). -/
def charToDigit (c : Char) : Option ℕ :=
  if 48 ≤ c.toNat ∧ c.toNat ≤ 57 then some (c.toNat - 48) else none

/-- The `.map(...)` / `.collect::<Result<Vec<_>>>()` stage of
`Assignment::from_file`: digit 0 becomes an unassigned cell with full domain,
digits 1..9 become assigned cells, anything else is the
`bail!("non-digit in input")` error.  `ords i` is the iteration order in which
the `HashSet` built by `(1..10).collect()` for cell `i` enumerates its nine
elements; Rust fixes it per set instance but not across program runs. -/
def parseVars (ords : ℕ → List ℕ) : ℕ → List Char → Except String (List Variable)
  | _, [] => .ok []
  | i, c :: rest =>
    match charToDigit c with
    | none => .error ("non-digit in input")
    | some 0 =>
      match parseVars ords (i + 1) rest with
      | .error e => .error e
      | .ok vs => .ok (.Unassigned (ords i) :: vs)
    | some (n + 1) =>
      match parseVars ords (i + 1) rest with
      | .error e => .error e
      | .ok vs => .ok (.Assigned (n + 1) :: vs)

/-- `Assignment::from_file`, with the file contents supplied as a character
list: drop whitespace, parse each digit, and require exactly 81 cells
(`bail!("invalid length of input ...")` otherwise). -/
def fromFileChars (ords : ℕ → List ℕ) (cs : List Char) : Except String Assignment :=
  match parseVars ords 0 (cs.filter (fun c => !c.isWhitespace)) with
  | .error e => .error e
  | .ok vs => if vs.length = 81 then .ok vs else .error ("invalid length of input")

/-- The ascending `HashSet` iteration order, used as the reference order. -/
def ascOrder : ℕ → List ℕ := fun _ => nineList

/-- An iteration order differing from `ascOrder` only at cell 0, where the
set `{1..9}` is enumerated starting with 2; equally possible for a Rust
`HashSet` under another seed. -/
def swapOrder : ℕ → List ℕ := fun i =>
  if i = 0 then [2, 1, 3, 4, 5, 6, 7, 8, 9] else nineList

/-!  Concrete grids used for witnesses and counterexamples. -/

/-- The digit `n` as the character `'0' + n`. -/
def digitChar (n : ℕ) : Char := Char.ofNat (48 + n)

/-- A complete valid Sudoku grid (checked by `decide` below), containing the
rectangle `(0,0) (0,1) (3,0) (3,1)` holding values `1 2 / 2 1`, so that
blanking the rectangle yields a puzzle with two solutions. -/
def GfullDigits : List ℕ :=
  [1, 2, 3, 4, 5, 6, 7, 8, 9,
   4, 5, 6, 7, 8, 9, 1, 2, 3,
   7, 8, 9, 1, 2, 3, 4, 5, 6,
   2, 1, 4, 3, 6, 5, 8, 9, 7,
   3, 6, 5, 8, 9, 7, 2, 1, 4,
   8, 9, 7, 2, 1, 4, 3, 6, 5,
   5, 4, 1, 6, 3, 2, 9, 7, 8,
   6, 3, 2, 9, 7, 8, 5, 4, 1,
   9, 7, 8, 5, 4, 1, 6, 3, 2]

/-- `GfullDigits` with the rectangle swapped: the other solution. -/
def GswapDigits : List ℕ :=
  [2, 1, 3, 4, 5, 6, 7, 8, 9,
   4, 5, 6, 7, 8, 9, 1, 2, 3,
   7, 8, 9, 1, 2, 3, 4, 5, 6,
   1, 2, 4, 3, 6, 5, 8, 9, 7,
   3, 6, 5, 8, 9, 7, 2, 1, 4,
   8, 9, 7, 2, 1, 4, 3, 6, 5,
   5, 4, 1, 6, 3, 2, 9, 7, 8,
   6, 3, 2, 9, 7, 8, 5, 4, 1,
   9, 7, 8, 5, 4, 1, 6, 3, 2]

/-- `GfullDigits` with the rectangle cells blanked (`0`). -/
def PDigits : List ℕ :=
  [0, 0, 3, 4, 5, 6, 7, 8, 9,
   4, 5, 6, 7, 8, 9, 1, 2, 3,
   7, 8, 9, 1, 2, 3, 4, 5, 6,
   0, 0, 4, 3, 6, 5, 8, 9, 7,
   3, 6, 5, 8, 9, 7, 2, 1, 4,
   8, 9, 7, 2, 1, 4, 3, 6, 5,
   5, 4, 1, 6, 3, 2, 9, 7, 8,
   6, 3, 2, 9, 7, 8, 5, 4, 1,
   9, 7, 8, 5, 4, 1, 6, 3, 2]

/-- Digits realised as a grid: 0 becomes a full-domain unassigned cell in
ascending order, other digits become assigned cells. -/
def mkGrid (l : List ℕ) : Assignment :=
  l.map (fun n => if n = 0 then Variable.Unassigned nineList else Variable.Assigned n)

/-- The full grid as an `Assignment`. -/
def Gfull : Assignment := GfullDigits.map Variable.Assigned

/-- The swapped full grid as an `Assignment`. -/
def Gswap : Assignment := GswapDigits.map Variable.Assigned

/-- The four-blank puzzle as parsed with ascending domain order. -/
def Pgrid : Assignment := mkGrid PDigits

/-- The four-blank puzzle as parsed with `swapOrder`. -/
def PgridSwap : Assignment :=
  Variable.Unassigned [2, 1, 3, 4, 5, 6, 7, 8, 9] :: (mkGrid PDigits).tail

/-- The puzzle characters fed to the parser in the concrete runs. -/
def PChars : List Char := PDigits.map digitChar

/-- 81 copies of one digit character. -/
def repChars (n : ℕ) : List Char := List.replicate 81 (digitChar n)

/-- The fully assigned all-ones grid: accepted by the parser, yet invalid. -/
def allOnes : Assignment := List.replicate 81 (Variable.Assigned 1)

/-- The fully assigned all-twos grid. -/
def allTwos : Assignment := List.replicate 81 (Variable.Assigned 2)

/-- The fully assigned all-threes grid. -/
def allThrees : Assignment := List.replicate 81 (Variable.Assigned 3)

/-- The fully assigned all-nines grid. -/
def allNines : Assignment := List.replicate 81 (Variable.Assigned 9)

/-- A search state for the counter counterexample: the rectangle cells of
`Gfull` blanked with the reduced domains `[2,1]`, `[1,2]`, `[1,2]`, `[1]`,
plus cell 2 blanked with its true value `[3]`.  Guessing 2 at cell 0
propagates to an empty domain at cell 28 (which `ac3` does not flag); the
recursive call then guesses 3 at cell 2, recurses once more, fails on the
empty domain, records one failure, exhausts its candidates, and fails --
discarding that recorded failure with its `Err`.  Guessing 1 at cell 0 then
solves the grid. -/
def H7 : Assignment :=
  (List.range 81).map (fun i =>
    if i = 0 then Variable.Unassigned [2, 1]
    else if i = 1 then Variable.Unassigned [1, 2]
    else if i = 2 then Variable.Unassigned [3]
    else if i = 27 then Variable.Unassigned [1, 2]
    else if i = 28 then Variable.Unassigned [1]
    else Variable.Assigned (GfullDigits.getD i 0))

/-- A two-clue grid used to inspect the worklist `ac3` starts from. -/
def g9grid : Assignment :=
  Variable.Unassigned nineList :: Variable.Assigned 5 ::
    List.replicate 79 (Variable.Unassigned nineList)

/-- A one-clue grid for the propagation-soundness witness. -/
def smallG : Assignment :=
  Variable.Assigned 5 :: List.replicate 80 (Variable.Unassigned nineList)

/-- The expected `ac3` output on `smallG`: every constraint neighbour of cell 0
loses the candidate 5. -/
def smallG2 : Assignment :=
  (List.range 81).map (fun i =>
    if i = 0 then Variable.Assigned 5
    else if i ∈ generateConstraints 0 then Variable.Unassigned [1, 2, 3, 4, 6, 7, 8, 9]
    else Variable.Unassigned nineList)

/-- A grid with duplicate clues (value 4, cells 0 and 1) and one unassigned
cell, for the contradiction-detection witness. -/
def U3 : Assignment :=
  Variable.Assigned 4 :: Variable.Assigned 4 :: Variable.Unassigned [1, 2] ::
    List.replicate 78 (Variable.Assigned 4)

/-- The characters of an unsolvable puzzle with a blank: two 2-clues in row 0,
a blank cell, and 2s elsewhere. -/
def U5Chars : List Char := [digitChar 2, digitChar 2, digitChar 0] ++ List.replicate 78 (digitChar 2)

/-- The grid `U5Chars` parses to (ascending order). -/
def U5 : Assignment :=
  Variable.Assigned 2 :: Variable.Assigned 2 :: Variable.Unassigned nineList ::
    List.replicate 78 (Variable.Assigned 2)

mutual

/-- Modelled from the spec: the total number of `backtrack` invocations and of
candidate-branch recursion failures over the whole search tree, including
subtrees that ultimately failed (spec section 4.3, Instrumentation).  The
search itself is mirrored from `backtrack`: candidates rejected by `ac3` spawn
no invocation, a successful recursion stops the scan, a failed recursion adds
its own subtree totals plus one failure and continues.  Success of a branch is
tested with `backtrack` itself (its counters never influence control flow). -/
def searchTotals (g : Assignment) : ℕ × ℕ :=
  match h : unassignedVariable g with
  | none => (1, 0)
  | some (x, domain) =>
    let t := searchTotalsVals domain x g
      ⟨(unassignedVariable_some_spec g x domain h).1,
        domain, (unassignedVariable_some_spec g x domain h).2⟩
    (1 + t.1, t.2)
termination_by (unassignedCount g, 1, 0)

/-- Modelled from the spec: the candidate loop of `searchTotals`. -/
def searchTotalsVals (vals : List ℕ) (x : ℕ) (g : Assignment)
    (hx : x < g.length ∧ ∃ d0, cellAt g x = Variable.Unassigned d0) : ℕ × ℕ :=
  match vals with
  | [] => (0, 0)
  | val :: rest =>
    match hac : ac3 (g.set x (.Assigned val)) with
    | .error _ => searchTotalsVals rest x g hx
    | .ok g2 =>
      let t := searchTotals g2
      if (backtrack g2 0 0).isOk then t
      else
        let r := searchTotalsVals rest x g hx
        (t.1 + r.1, t.2 + 1 + r.2)
termination_by (unassignedCount g, 0, vals.length)
decreasing_by
  all_goals simp_wf
  all_goals
    try (obtain ⟨hxlen, hd⟩ := hx
         obtain ⟨d0, hd0⟩ := hd
         have h1 := ac3_count_le _ _ hac
         have h2 : unassignedCount (g.set x (Variable.Assigned y)) < unassignedCount g :=
           unassignedCount_set_assigned_lt g x y d0 hd0 hxlen)
  all_goals first
    | exact Prod.Lex.right _ (Prod.Lex.right _ (by omega))
    | exact Prod.Lex.left _ _ (by omega)

end

/-- Fuel-indexed twin of the candidate loop of `searchTotals`. -/
def searchTotalsValsF (st : Assignment → ℕ × ℕ)
    (bt : Assignment → ℕ → ℕ → Except String (Assignment × ℕ × ℕ)) :
    List ℕ → ℕ → Assignment → ℕ × ℕ
  | [], _, _ => (0, 0)
  | val :: rest, x, g =>
    match ac3F (g.set x (.Assigned val)) with
    | .error _ => searchTotalsValsF st bt rest x g
    | .ok g2 =>
      let t := st g2
      if (bt g2 0 0).isOk then t
      else
        let r := searchTotalsValsF st bt rest x g
        (t.1 + r.1, t.2 + 1 + r.2)

/-- Fuel-indexed twin of `searchTotals`. -/
def searchTotalsF : ℕ → Assignment → ℕ × ℕ
  | 0, _ => (0, 0)
  | fuel + 1, g =>
    match unassignedVariable g with
    | none => (1, 0)
    | some (x, domain) =>
      let t := searchTotalsValsF (searchTotalsF fuel) (backtrackF fuel) domain x g
      (1 + t.1, t.2)

/-!  Basic facts about cell access and update. -/

theorem cellAt_set_self (g : Assignment) (x : ℕ) (v : Variable) (hx : x < g.length) :
    cellAt (g.set x v) x = v := by
  induction g generalizing x with
  | nil => simp at hx
  | cons a rest ih =>
    cases x with
    | zero => rfl
    | succ n =>
      simp only [List.set, cellAt_cons_succ]
      exact ih n (by simpa using hx)

theorem cellAt_set_ne (g : Assignment) (x y : ℕ) (v : Variable) (h : x ≠ y) :
    cellAt (g.set x v) y = cellAt g y := by
  induction g generalizing x y with
  | nil => simp [List.set]
  | cons a rest ih =>
    cases x with
    | zero =>
      cases y with
      | zero => exact absurd rfl h
      | succ m => rfl
    | succ n =>
      cases y with
      | zero => rfl
      | succ m =>
        simp only [List.set, cellAt_cons_succ]
        exact ih n m (by omega)

theorem set_oob (g : Assignment) (x : ℕ) (v : Variable) (h : g.length ≤ x) :
    g.set x v = g := by
  induction g generalizing x with
  | nil => rfl
  | cons a rest ih =>
    cases x with
    | zero => simp at h
    | succ n =>
      simp only [List.set]
      rw [ih n (by simpa using h)]

theorem cellAt_oob (g : Assignment) (x : ℕ) (h : g.length ≤ x) :
    cellAt g x = .Unassigned [] := by
  rw [cellAt, List.getD_eq_default]
  omega

/-!  The evolution relation. -/

theorem Evolves.refl (g : Assignment) : Evolves g g := fun _ => Or.inl rfl

theorem Evolves.trans {g1 g2 g3 : Assignment} (h12 : Evolves g1 g2) (h23 : Evolves g2 g3) :
    Evolves g1 g3 := by
  intro y
  rcases h12 y with h | ⟨d, d2, hd, hd2, hs⟩ | ⟨d, w, hd, hw, hmem⟩
  · rcases h23 y with h2 | ⟨d, d2, hd, hd2, hs⟩ | ⟨d, w, hd, hw, hmem⟩
    · exact Or.inl (h2.trans h)
    · exact Or.inr (Or.inl ⟨d, d2, h ▸ hd, hd2, hs⟩)
    · exact Or.inr (Or.inr ⟨d, w, h ▸ hd, hw, hmem⟩)
  · rcases h23 y with h2 | ⟨d3, d4, hd3, hd4, hs2⟩ | ⟨d3, w, hd3, hw, hmem⟩
    · exact Or.inr (Or.inl ⟨d, d2, hd, h2.trans hd2, hs⟩)
    · rw [hd2] at hd3
      injection hd3 with he
      subst he
      exact Or.inr (Or.inl ⟨d, d4, hd, hd4, hs2.trans hs⟩)
    · rw [hd2] at hd3
      injection hd3 with he
      subst he
      exact Or.inr (Or.inr ⟨d, w, hd, hw, hs.mem hmem⟩)
  · rcases h23 y with h2 | ⟨d3, d4, hd3, hd4, hs2⟩ | ⟨d3, w2, hd3, hw2, hmem2⟩
    · exact Or.inr (Or.inr ⟨d, w, hd, h2.trans hw, hmem⟩)
    · rw [hw] at hd3
      cases hd3
    · rw [hw] at hd3
      cases hd3

theorem Evolves.assigned {g g2 : Assignment} (h : Evolves g g2) {z w : ℕ}
    (hz : cellAt g z = .Assigned w) : cellAt g2 z = .Assigned w := by
  rcases h z with h2 | ⟨d, d2, hd, _, _⟩ | ⟨d, _, hd, _, _⟩
  · rw [h2, hz]
  · rw [hz] at hd; cases hd
  · rw [hz] at hd; cases hd

theorem Evolves.set_unassigned (g : Assignment) (y : ℕ) (d d2 : List ℕ)
    (hd : cellAt g y = .Unassigned d) (hs : d2.Sublist d) :
    Evolves g (g.set y (.Unassigned d2)) := by
  intro z
  by_cases hzy : y = z
  · subst hzy
    by_cases hy : y < g.length
    · exact Or.inr (Or.inl ⟨d, d2, hd, cellAt_set_self g y _ hy, hs⟩)
    · rw [set_oob g y _ (by omega)]
      exact Or.inl rfl
  · rw [cellAt_set_ne g y z _ hzy]
    exact Or.inl rfl

theorem Evolves.set_assigned (g : Assignment) (y w : ℕ) (d : List ℕ)
    (hd : cellAt g y = .Unassigned d) (hw : w ∈ d) :
    Evolves g (g.set y (.Assigned w)) := by
  have hy : y < g.length :=
    lt_length_of_cellAt_unassigned g y d hd (by rintro rfl; cases hw)
  intro z
  by_cases hzy : y = z
  · subst hzy
    exact Or.inr (Or.inr ⟨d, w, hd, cellAt_set_self g y _ hy, hw⟩)
  · rw [cellAt_set_ne g y z _ hzy]
    exact Or.inl rfl

/-- The single element left after the conversion removal is an old candidate. -/
theorem headD_erase_mem (d : List ℕ) (val : ℕ)
    (h : (d.erase val).length = 1) : (d.erase val).headD 0 ∈ d := by
  obtain ⟨a, ha⟩ := List.length_eq_one.mp h
  rw [ha]
  exact List.mem_of_mem_erase (ha ▸ List.mem_singleton_self a)

theorem processNeighbors_evolves (val : ℕ) (ys : List ℕ) :
    ∀ (g g2 : Assignment) (pushed : List (ℕ × ℕ)),
      processNeighbors val g ys = .ok (g2, pushed) → Evolves g g2 := by
  induction ys with
  | nil =>
    intro g g2 pushed h
    simp only [processNeighbors] at h
    injection h with h
    injection h with h1 h2
    subst h1
    exact Evolves.refl g
  | cons y ys ih =>
    intro g g2 pushed h
    simp only [processNeighbors] at h
    split at h
    next a ha =>
      split at h
      · exact absurd h (by simp)
      · exact ih g g2 pushed h
    next d hd =>
      split at h
      next hcond =>
        split at h
        next => exact absurd h (by simp)
        next g3 pushed2 heq =>
          injection h with h
          injection h with h1 h2
          subst h1
          have hw : (d.erase val).headD 0 ∈ d := headD_erase_mem d val hcond.2
          exact (Evolves.set_assigned g y _ d hd hw).trans (ih _ _ _ heq)
      next =>
        exact (Evolves.set_unassigned g y d _ hd (List.erase_sublist val d)).trans
          (ih _ _ _ h)

theorem processNeighbors_length (val : ℕ) (ys : List ℕ) :
    ∀ (g g2 : Assignment) (pushed : List (ℕ × ℕ)),
      processNeighbors val g ys = .ok (g2, pushed) → g2.length = g.length := by
  induction ys with
  | nil =>
    intro g g2 pushed h
    simp only [processNeighbors] at h
    injection h with h
    injection h with h1 h2
    subst h1
    rfl
  | cons y ys ih =>
    intro g g2 pushed h
    simp only [processNeighbors] at h
    split at h
    next a ha =>
      split at h
      · exact absurd h (by simp)
      · exact ih g g2 pushed h
    next d hd =>
      split at h
      next hcond =>
        split at h
        next => exact absurd h (by simp)
        next g3 pushed2 heq =>
          injection h with h
          injection h with h1 h2
          subst h1
          rw [ih _ _ _ heq, List.length_set]
      next =>
        rw [ih _ _ _ h, List.length_set]

/-!  Well-formedness preservation. -/

theorem domainsNodup_cellAt {g : Assignment} (h : DomainsNodup g) (y : ℕ) (d : List ℕ)
    (hd : cellAt g y = .Unassigned d) : d.Nodup := by
  by_cases hy : y < g.length
  · have hmem : cellAt g y ∈ g := by
      rw [cellAt, List.getD_eq_getElem g _ hy]
      exact List.getElem_mem hy
    have h2 := h _ hmem
    rw [hd] at h2
    exact h2
  · rw [cellAt_oob g y (by omega)] at hd
    injection hd with he
    subst he
    exact List.nodup_nil

theorem valuesInRange_cellAt_assigned {g : Assignment} (h : ValuesInRange g) {z w : ℕ}
    (hz : cellAt g z = .Assigned w) : w ∈ nineList := by
  by_cases hy : z < g.length
  · have hmem : cellAt g z ∈ g := by
      rw [cellAt, List.getD_eq_getElem g _ hy]
      exact List.getElem_mem hy
    have h2 := h _ hmem
    rw [hz] at h2
    exact h2
  · rw [cellAt_oob g z (by omega)] at hz
    cases hz

theorem valuesInRange_cellAt_unassigned {g : Assignment} (h : ValuesInRange g) {z : ℕ}
    {d : List ℕ} (hz : cellAt g z = .Unassigned d) : ∀ u ∈ d, u ∈ nineList := by
  by_cases hy : z < g.length
  · have hmem : cellAt g z ∈ g := by
      rw [cellAt, List.getD_eq_getElem g _ hy]
      exact List.getElem_mem hy
    have h2 := h _ hmem
    rw [hz] at h2
    exact h2
  · rw [cellAt_oob g z (by omega)] at hz
    injection hz with he
    subst he
    intro u hu
    cases hu

theorem domainsNodup_set {g : Assignment} (h : DomainsNodup g) (x : ℕ) (v : Variable)
    (hv : nodupVar v) : DomainsNodup (g.set x v) := by
  intro w hw
  rcases List.mem_or_eq_of_mem_set hw with h2 | h2
  · exact h w h2
  · subst h2; exact hv

theorem valuesInRange_set {g : Assignment} (h : ValuesInRange g) (x : ℕ) (v : Variable)
    (hv : rangeVar v) : ValuesInRange (g.set x v) := by
  intro w hw
  rcases List.mem_or_eq_of_mem_set hw with h2 | h2
  · exact h w h2
  · subst h2; exact hv

theorem processNeighbors_nodup (val : ℕ) (ys : List ℕ) :
    ∀ (g g2 : Assignment) (pushed : List (ℕ × ℕ)), DomainsNodup g →
      processNeighbors val g ys = .ok (g2, pushed) → DomainsNodup g2 := by
  induction ys with
  | nil =>
    intro g g2 pushed hnd h
    simp only [processNeighbors] at h
    injection h with h
    injection h with h1 h2
    subst h1
    exact hnd
  | cons y ys ih =>
    intro g g2 pushed hnd h
    simp only [processNeighbors] at h
    split at h
    next a ha =>
      split at h
      · exact absurd h (by simp)
      · exact ih g g2 pushed hnd h
    next d hd =>
      split at h
      next hcond =>
        split at h
        next => exact absurd h (by simp)
        next g3 pushed2 heq =>
          injection h with h
          injection h with h1 h2
          subst h1
          exact ih _ _ _ (domainsNodup_set hnd y (.Assigned ((d.erase val).headD 0)) trivial) heq
      next =>
        exact ih _ _ _
          (domainsNodup_set hnd y (.Unassigned (d.erase val))
            ((domainsNodup_cellAt hnd y d hd).erase val)) h

theorem processNeighbors_range (val : ℕ) (ys : List ℕ) :
    ∀ (g g2 : Assignment) (pushed : List (ℕ × ℕ)), ValuesInRange g →
      processNeighbors val g ys = .ok (g2, pushed) → ValuesInRange g2 := by
  induction ys with
  | nil =>
    intro g g2 pushed hr h
    simp only [processNeighbors] at h
    injection h with h
    injection h with h1 h2
    subst h1
    exact hr
  | cons y ys ih =>
    intro g g2 pushed hr h
    simp only [processNeighbors] at h
    split at h
    next a ha =>
      split at h
      · exact absurd h (by simp)
      · exact ih g g2 pushed hr h
    next d hd =>
      split at h
      next hcond =>
        split at h
        next => exact absurd h (by simp)
        next g3 pushed2 heq =>
          injection h with h
          injection h with h1 h2
          subst h1
          have hw : (d.erase val).headD 0 ∈ d := headD_erase_mem d val hcond.2
          exact ih _ _ _
            (valuesInRange_set hr y (.Assigned ((d.erase val).headD 0))
              (valuesInRange_cellAt_unassigned hr hd _ hw)) heq
      next =>
        refine ih _ _ _ (valuesInRange_set hr y (.Unassigned (d.erase val)) ?_) h
        intro u hu
        exact valuesInRange_cellAt_unassigned hr hd u (List.mem_of_mem_erase hu)

theorem processNeighbors_pushed_sound (val : ℕ) (ys : List ℕ) :
    ∀ (g g2 : Assignment) (pushed : List (ℕ × ℕ)),
      processNeighbors val g ys = .ok (g2, pushed) →
      ∀ p ∈ pushed, cellAt g2 p.1 = .Assigned p.2 := by
  induction ys with
  | nil =>
    intro g g2 pushed h
    simp only [processNeighbors] at h
    injection h with h
    injection h with h1 h2
    subst h2
    intro p hp
    cases hp
  | cons y ys ih =>
    intro g g2 pushed h
    simp only [processNeighbors] at h
    split at h
    next a ha =>
      split at h
      · exact absurd h (by simp)
      · exact ih g g2 pushed h
    next d hd =>
      split at h
      next hcond =>
        split at h
        next => exact absurd h (by simp)
        next g3 pushed2 heq =>
          injection h with h
          injection h with h1 h2
          subst h1
          subst h2
          intro p hp
          rcases List.mem_cons.mp hp with h2 | h2
          · subst h2
            have hy : y < g.length :=
              lt_length_of_cellAt_unassigned g y d hd
                (by rintro rfl; cases hcond.1)
            exact (processNeighbors_evolves val ys _ _ _ heq).assigned
              (cellAt_set_self g y _ hy)
          · exact ih _ _ _ heq p h2
      next =>
        exact ih _ _ _ h

theorem processNeighbors_new_assigned (val : ℕ) (ys : List ℕ) :
    ∀ (g g2 : Assignment) (pushed : List (ℕ × ℕ)),
      processNeighbors val g ys = .ok (g2, pushed) →
      ∀ z w, cellAt g2 z = .Assigned w → cellAt g z = .Assigned w ∨ (z, w) ∈ pushed := by
  induction ys with
  | nil =>
    intro g g2 pushed h
    simp only [processNeighbors] at h
    injection h with h
    injection h with h1 h2
    subst h1
    intro z w hz
    exact Or.inl hz
  | cons y ys ih =>
    intro g g2 pushed h
    simp only [processNeighbors] at h
    split at h
    next a ha =>
      split at h
      · exact absurd h (by simp)
      · exact ih g g2 pushed h
    next d hd =>
      split at h
      next hcond =>
        split at h
        next => exact absurd h (by simp)
        next g3 pushed2 heq =>
          injection h with h
          injection h with h1 h2
          subst h1
          subst h2
          intro z w hz
          rcases ih _ _ _ heq z w hz with h2 | h2
          · by_cases hzy : y = z
            · subst hzy
              have hy : y < g.length :=
                lt_length_of_cellAt_unassigned g y d hd
                  (by rintro rfl; cases hcond.1)
              rw [cellAt_set_self g y _ hy] at h2
              injection h2 with he
              subst he
              exact Or.inr (List.mem_cons_self _ _)
            · rw [cellAt_set_ne g y z _ hzy] at h2
              exact Or.inl h2
          · exact Or.inr (List.mem_cons_of_mem _ h2)
      next =>
        intro z w hz
        rcases ih _ _ _ h z w hz with h2 | h2
        · by_cases hzy : y = z
          · subst hzy
            by_cases hy : y < g.length
            · rw [cellAt_set_self g y _ hy] at h2
              cases h2
            · rw [set_oob g y _ (by omega)] at h2
              exact Or.inl h2
          · rw [cellAt_set_ne g y z _ hzy] at h2
            exact Or.inl h2
        · exact Or.inr h2

theorem processNeighbors_done (val : ℕ) (ys : List ℕ) :
    ∀ (g g2 : Assignment) (pushed : List (ℕ × ℕ)), DomainsNodup g →
      processNeighbors val g ys = .ok (g2, pushed) →
      ∀ y ∈ ys, (∀ w, cellAt g2 y = .Assigned w → w ≠ val) ∧
        (∀ d, cellAt g2 y = .Unassigned d → val ∉ d) := by
  induction ys with
  | nil =>
    intro g g2 pushed hnd h y hy
    cases hy
  | cons y0 ys ih =>
    intro g g2 pushed hnd h y hy
    simp only [processNeighbors] at h
    split at h
    next a ha =>
      split at h
      next => exact absurd h (by simp)
      next hne =>
        rcases List.mem_cons.mp hy with h2 | h2
        · subst h2
          have h3 : cellAt g2 y = .Assigned a :=
            (processNeighbors_evolves val ys _ _ _ h).assigned ha
          constructor
          · intro w hw
            rw [h3] at hw
            injection hw with he
            subst he
            exact hne
          · intro d hd2
            rw [h3] at hd2
            cases hd2
        · exact ih g g2 pushed hnd h y h2
    next d hd =>
      have hdnodup : d.Nodup := domainsNodup_cellAt hnd y0 d hd
      split at h
      next hcond =>
        split at h
        next => exact absurd h (by simp)
        next g3 pushed2 heq =>
          injection h with h
          injection h with h1 h2
          subst h1
          rcases List.mem_cons.mp hy with h2 | h2
          · subst h2
            have hy0 : y < g.length :=
              lt_length_of_cellAt_unassigned g y d hd
                (by rintro rfl; cases hcond.1)
            have hwm : (d.erase val).headD 0 ∈ d.erase val := by
              obtain ⟨a, ha⟩ := List.length_eq_one.mp hcond.2
              rw [ha]
              exact List.mem_singleton_self a
            have hwne : (d.erase val).headD 0 ≠ val :=
              ((hdnodup.mem_erase_iff).mp hwm).1
            have h3 : cellAt g3 y = .Assigned ((d.erase val).headD 0) :=
              (processNeighbors_evolves val ys _ _ _ heq).assigned
                (cellAt_set_self g y _ hy0)
            constructor
            · intro w hw
              rw [h3] at hw
              injection hw with he
              subst he
              exact hwne
            · intro d2 hd2
              rw [h3] at hd2
              cases hd2
          · exact ih _ _ _ (domainsNodup_set hnd y0 (.Assigned ((d.erase val).headD 0)) trivial) heq y h2
      next hcond =>
        rcases List.mem_cons.mp hy with h2 | h2
        · subst h2
          have hnotin : val ∉ d.erase val := fun hm => ((hdnodup.mem_erase_iff).mp hm).1 rfl
          by_cases hy0 : y < g.length
          · have hset : cellAt (g.set y (.Unassigned (d.erase val))) y =
                .Unassigned (d.erase val) := cellAt_set_self g y _ hy0
            rcases (processNeighbors_evolves val ys _ _ _ h) y with h3 | ⟨d3, d4, hd3, hd4, hs⟩ | ⟨d3, w3, hd3, hw3, hm3⟩
            · rw [hset] at h3
              constructor
              · intro w hw
                rw [h3] at hw
                cases hw
              · intro d2 hd2
                rw [h3] at hd2
                injection hd2 with he
                subst he
                exact hnotin
            · rw [hset] at hd3
              injection hd3 with he
              subst he
              constructor
              · intro w hw
                rw [hd4] at hw
                cases hw
              · intro d2 hd2
                rw [hd4] at hd2
                injection hd2 with he
                subst he
                intro hm
                exact hnotin (hs.mem hm)
            · rw [hset] at hd3
              injection hd3 with he
              subst he
              constructor
              · intro w hw
                rw [hw3] at hw
                injection hw with he
                subst he
                intro he
                subst he
                exact hnotin hm3
              · intro d2 hd2
                rw [hw3] at hd2
                cases hd2
          · have hdnil : d = [] := by
              rw [cellAt_oob g y (by omega)] at hd
              injection hd with he
              rw [he]
            subst hdnil
            have hgeq : g.set y (.Unassigned ([].erase val)) = g := set_oob g y _ (by omega)
            rw [hgeq] at h
            rcases (processNeighbors_evolves val ys _ _ _ h) y with h3 | ⟨d3, d4, hd3, hd4, hs⟩ | ⟨d3, w3, hd3, hw3, hm3⟩
            · rw [hd] at h3
              constructor
              · intro w hw
                rw [h3] at hw
                cases hw
              · intro d2 hd2
                rw [h3] at hd2
                injection hd2 with he
                subst he
                intro hm
                cases hm
            · rw [hd] at hd3
              injection hd3 with he
              subst he
              have : d4 = [] := List.sublist_nil.mp hs
              subst this
              constructor
              · intro w hw
                rw [hd4] at hw
                cases hw
              · intro d2 hd2
                rw [hd4] at hd2
                injection hd2 with he
                subst he
                intro hm
                cases hm
            · rw [hd] at hd3
              injection hd3 with he
              subst he
              cases hm3
        · refine ih _ _ _ (domainsNodup_set hnd y0 (.Unassigned (d.erase val)) (hdnodup.erase val)) h y h2

/-!  AC-3 loop invariants. -/

theorem Evolves.doneAt {g g2 : Assignment} (hev : Evolves g g2) {z w : ℕ}
    (hdone : DoneAt g z w) : DoneAt g2 z w := by
  intro y hy
  obtain ⟨h1, h2⟩ := hdone y hy
  rcases hev y with h3 | ⟨d, d2, hd, hd2, hs⟩ | ⟨d, w2, hd, hw2, hm⟩
  · constructor
    · intro w2 hw2
      exact h1 w2 (h3 ▸ hw2)
    · intro d hd
      exact h2 d (h3 ▸ hd)
  · constructor
    · intro w2 hw2
      rw [hd2] at hw2
      cases hw2
    · intro d3 hd3
      rw [hd2] at hd3
      injection hd3 with he
      subst he
      intro hm
      exact h2 d hd (hs.mem hm)
  · constructor
    · intro w3 hw3
      rw [hw2] at hw3
      injection hw3 with he
      subst he
      intro he
      subst he
      exact h2 d hd hm
    · intro d3 hd3
      rw [hw2] at hd3
      cases hd3

theorem ac3Loop_basic (g : Assignment) (queue : List (ℕ × ℕ)) :
    ∀ g2, ac3Loop g queue = .ok g2 →
      Evolves g g2 ∧ g2.length = g.length ∧
        (DomainsNodup g → DomainsNodup g2) ∧ (ValuesInRange g → ValuesInRange g2) := by
  induction g, queue using ac3Loop.induct with
  | case1 g =>
    intro g2 h
    rw [ac3Loop] at h
    injection h with h
    subst h
    exact ⟨Evolves.refl g, rfl, id, id⟩
  | case2 g x val rest e heq =>
    intro g2 h
    rw [ac3Loop_cons_error g x val rest e heq] at h
    cases h
  | case3 g x val rest g3 pushed heq ih =>
    intro g2 h
    rw [ac3Loop_cons_ok g x val rest g3 pushed heq] at h
    obtain ⟨hev, hlen, hnd, hr⟩ := ih g2 h
    refine ⟨(processNeighbors_evolves val _ _ _ _ heq).trans hev, ?_, ?_, ?_⟩
    · rw [hlen, processNeighbors_length val _ _ _ _ heq]
    · intro h2
      exact hnd (processNeighbors_nodup val _ _ _ _ h2 heq)
    · intro h2
      exact hr (processNeighbors_range val _ _ _ _ h2 heq)

theorem ac3_basic (g g2 : Assignment) (h : ac3 g = .ok g2) :
    Evolves g g2 ∧ g2.length = g.length ∧
      (DomainsNodup g → DomainsNodup g2) ∧ (ValuesInRange g → ValuesInRange g2) :=
  ac3Loop_basic g _ g2 h

theorem ac3Loop_done (g : Assignment) (queue : List (ℕ × ℕ)) :
    ∀ g2, DomainsNodup g → QueueSound g queue → QueueInv g queue →
      ac3Loop g queue = .ok g2 →
      ∀ z w, cellAt g2 z = .Assigned w → DoneAt g2 z w := by
  induction g, queue using ac3Loop.induct with
  | case1 g =>
    intro g2 hnd hsound hinv h
    rw [ac3Loop] at h
    injection h with h
    subst h
    intro z w hz
    rcases hinv z w hz with h2 | h2
    · cases h2
    · exact h2
  | case2 g x val rest e heq =>
    intro g2 hnd hsound hinv h
    rw [ac3Loop_cons_error g x val rest e heq] at h
    cases h
  | case3 g x val rest g3 pushed heq ih =>
    intro g2 hnd hsound hinv h
    rw [ac3Loop_cons_ok g x val rest g3 pushed heq] at h
    have hev := processNeighbors_evolves val _ _ _ _ heq
    have hnd3 := processNeighbors_nodup val _ _ _ _ hnd heq
    have hsound3 : QueueSound g3 (pushed.reverse ++ rest) := by
      intro p hp
      rcases List.mem_append.mp hp with h2 | h2
      · exact processNeighbors_pushed_sound val _ _ _ _ heq p (List.mem_reverse.mp h2)
      · exact hev.assigned (hsound p (List.mem_cons_of_mem _ h2))
    have hinv3 : QueueInv g3 (pushed.reverse ++ rest) := by
      intro z w hz
      rcases processNeighbors_new_assigned val _ _ _ _ heq z w hz with h2 | h2
      · rcases hinv z w h2 with h3 | h3
        · rcases List.mem_cons.mp h3 with h4 | h4
          · injection h4 with he1 he2
            right
            rw [he1, he2]
            intro y hy
            exact processNeighbors_done val _ _ _ _ hnd heq y hy
          · exact Or.inl (List.mem_append.mpr (Or.inr h4))
        · exact Or.inr (hev.doneAt h3)
      · exact Or.inl (List.mem_append.mpr (Or.inl (List.mem_reverse.mpr h2)))
    exact ih g2 hnd3 hsound3 hinv3 h

theorem assignedVariablesFrom_mem (l : List Variable) :
    ∀ (i z w : ℕ), (z, w) ∈ assignedVariablesFrom i l ↔
      ∃ k, z = i + k ∧ cellAt l k = .Assigned w := by
  induction l with
  | nil =>
    intro i z w
    simp only [assignedVariablesFrom, List.not_mem_nil, false_iff]
    rintro ⟨k, hk, hc⟩
    rw [cellAt, List.getD_eq_default] at hc
    · cases hc
    · simp
  | cons a rest ih =>
    intro i z w
    cases a with
    | Assigned v =>
      simp only [assignedVariablesFrom, List.mem_cons]
      constructor
      · rintro (h | h)
        · injection h with h1 h2
          subst h1
          subst h2
          exact ⟨0, by omega, by rw [cellAt_cons_zero]⟩
        · obtain ⟨k, hk, hc⟩ := (ih (i + 1) z w).mp h
          exact ⟨k + 1, by omega, by rw [cellAt_cons_succ]; exact hc⟩
      · rintro ⟨k, hk, hc⟩
        cases k with
        | zero =>
          rw [cellAt_cons_zero] at hc
          injection hc with he
          subst he
          left
          subst hk
          rfl
        | succ m =>
          rw [cellAt_cons_succ] at hc
          right
          exact (ih (i + 1) z w).mpr ⟨m, by omega, hc⟩
    | Unassigned d =>
      simp only [assignedVariablesFrom]
      constructor
      · intro h
        obtain ⟨k, hk, hc⟩ := (ih (i + 1) z w).mp h
        exact ⟨k + 1, by omega, by rw [cellAt_cons_succ]; exact hc⟩
      · rintro ⟨k, hk, hc⟩
        cases k with
        | zero =>
          rw [cellAt_cons_zero] at hc
          cases hc
        | succ m =>
          rw [cellAt_cons_succ] at hc
          exact (ih (i + 1) z w).mpr ⟨m, by omega, hc⟩

/-- The initial worklist of `ac3` holds exactly the assigned cells. -/
theorem assignedVariables_mem (g : Assignment) (z w : ℕ) :
    (z, w) ∈ assignedVariables g ↔ cellAt g z = .Assigned w := by
  rw [assignedVariables, assignedVariablesFrom_mem]
  constructor
  · rintro ⟨k, hk, hc⟩
    subst hk
    simpa using hc
  · intro h
    exact ⟨z, by omega, h⟩

/-- Main fixed-point property: after a successful `ac3` run, every assigned
cell has been fully processed against all of its constraint neighbours. -/
theorem ac3_done (g g2 : Assignment) (hnd : DomainsNodup g) (h : ac3 g = .ok g2) :
    ∀ z w, cellAt g2 z = .Assigned w → DoneAt g2 z w := by
  refine ac3Loop_done g _ g2 hnd ?_ ?_ h
  · intro p hp
    exact (assignedVariables_mem g p.1 p.2).mp (List.mem_reverse.mp hp)
  · intro z w hz
    exact Or.inl (List.mem_reverse.mpr ((assignedVariables_mem g z w).mpr hz))

theorem ac3_ok_noConflicts (g g2 : Assignment) (hnd : DomainsNodup g)
    (h : ac3 g = .ok g2) : NoConflicts g2 := by
  intro z w hz y hy w2 hy2
  exact (ac3_done g g2 hnd h z w hz y hy).1 w2 hy2

theorem processNeighbors_error_msg (val : ℕ) (ys : List ℕ) :
    ∀ (g : Assignment) (e : String), processNeighbors val g ys = .error e →
      e = ("inconsistent") := by
  induction ys with
  | nil =>
    intro g e h
    simp only [processNeighbors] at h
    cases h
  | cons y ys ih =>
    intro g e h
    simp only [processNeighbors] at h
    split at h
    next a ha =>
      split at h
      · injection h with he
        exact he.symm
      · exact ih g e h
    next d hd =>
      split at h
      next hcond =>
        split at h
        next e2 heq =>
          injection h with he
          subst he
          exact ih _ e2 heq
        next => cases h
      next =>
        exact ih _ e h

theorem ac3Loop_error_msg (g : Assignment) (queue : List (ℕ × ℕ)) :
    ∀ e, ac3Loop g queue = .error e → e = ("inconsistent") := by
  induction g, queue using ac3Loop.induct with
  | case1 g =>
    intro e h
    rw [ac3Loop] at h
    cases h
  | case2 g x val rest e2 heq =>
    intro e h
    rw [ac3Loop_cons_error g x val rest e2 heq] at h
    injection h with he
    subst he
    exact processNeighbors_error_msg val _ g e2 heq
  | case3 g x val rest g3 pushed heq ih =>
    intro e h
    rw [ac3Loop_cons_ok g x val rest g3 pushed heq] at h
    exact ih e h

/-- A grid holding two equal assigned values on constraint neighbours makes
any `ac3` run fail with the `inconsistent` signal. -/
theorem ac3_dup_error (g : Assignment) (a b v : ℕ) (hnd : DomainsNodup g)
    (hab : b ∈ generateConstraints a)
    (ha : cellAt g a = .Assigned v) (hb : cellAt g b = .Assigned v) :
    ac3 g = .error ("inconsistent") := by
  cases h : ac3 g with
  | ok g2 =>
    have hev := (ac3_basic g g2 h).1
    have hnc := ac3_ok_noConflicts g g2 hnd h
    exact absurd rfl (hnc a v (hev.assigned ha) b hab v (hev.assigned hb))
  | error e =>
    rw [ac3Loop_error_msg g _ e h]

/-!  The backtracking search. -/

theorem unassignedCount_pos (g : Assignment) (x : ℕ) (d : List ℕ)
    (hd : cellAt g x = .Unassigned d) (hx : x < g.length) : 0 < unassignedCount g := by
  have := unassignedCount_set_assigned_lt g x 1 d hd hx
  omega

theorem unassignedVariableFrom_none (l : List Variable) :
    ∀ i, unassignedVariableFrom i l = none ↔
      ∀ k < l.length, ∃ v, cellAt l k = .Assigned v := by
  induction l with
  | nil =>
    intro i
    simp only [unassignedVariableFrom, List.length_nil]
    constructor
    · intro _ k hk
      omega
    · intro _
      trivial
  | cons a rest ih =>
    intro i
    cases a with
    | Assigned v =>
      simp only [unassignedVariableFrom]
      rw [ih (i + 1)]
      constructor
      · intro h k hk
        cases k with
        | zero => exact ⟨v, by rw [cellAt_cons_zero]⟩
        | succ m =>
          rw [cellAt_cons_succ]
          exact h m (by simpa using hk)
      · intro h k hk
        have h2 := h (k + 1) (by simpa using hk)
        rw [cellAt_cons_succ] at h2
        exact h2
    | Unassigned d =>
      simp only [unassignedVariableFrom]
      constructor
      · intro h
        cases h
      · intro h
        obtain ⟨v, hv⟩ := h 0 (by simp)
        rw [cellAt_cons_zero] at hv
        cases hv

/-- `unassigned_variable` finds nothing exactly when every cell is assigned. -/
theorem unassignedVariable_none_iff (g : Assignment) :
    unassignedVariable g = none ↔ ∀ k < g.length, ∃ v, cellAt g k = .Assigned v :=
  unassignedVariableFrom_none g 0

/-- Master specification of a successful `backtrack` run: the solution keeps
the grid shape and well-formedness, is fully assigned, extends the input
assignments, is conflict-free unless it is the untouched input itself, and the
returned `called` and `failed` count only increments recorded on the successful
call chain: `called` strictly grows, bounded by one per chain node, and
`failed` grows by at most the chain nodes' own rejected candidates (at most
nine per node), independently of how large the discarded failed subtrees
were. -/
theorem backtrack_ok_spec : ∀ (n : ℕ) (g : Assignment) (c f : ℕ) (sol : Assignment)
    (c2 f2 : ℕ), unassignedCount g ≤ n → DomainsNodup g → ValuesInRange g →
    backtrack g c f = .ok (sol, c2, f2) →
    sol.length = g.length ∧ DomainsNodup sol ∧ ValuesInRange sol ∧
      unassignedVariable sol = none ∧
      (∀ i v, cellAt g i = .Assigned v → cellAt sol i = .Assigned v) ∧
      (unassignedVariable g = none ∧ sol = g ∨ NoConflicts sol) ∧
      c < c2 ∧ c2 ≤ c + 1 + unassignedCount g ∧
      f ≤ f2 ∧ f2 ≤ f + 9 * (1 + unassignedCount g) := by
  intro n
  induction n with
  | zero =>
    intro g c f sol c2 f2 hcount hnd hr h
    cases hu : unassignedVariable g with
    | none =>
      rw [backtrack_none g c f hu] at h
      injection h with h
      injection h with h1 h2
      injection h2 with h2 h3
      subst h1
      exact ⟨rfl, hnd, hr, hu, fun i v hv => hv, Or.inl ⟨rfl, rfl⟩, by omega, by omega,
        by omega, by omega⟩
    | some p =>
      obtain ⟨x, domain⟩ := p
      have hxs := unassignedVariable_some_spec g x domain hu
      have := unassignedCount_pos g x domain hxs.2 hxs.1
      omega
  | succ n ih =>
    intro g c f sol c2 f2 hcount hnd hr h
    cases hu : unassignedVariable g with
    | none =>
      rw [backtrack_none g c f hu] at h
      injection h with h
      injection h with h1 h2
      injection h2 with h2 h3
      subst h1
      exact ⟨rfl, hnd, hr, hu, fun i v hv => hv, Or.inl ⟨rfl, rfl⟩, by omega, by omega,
        by omega, by omega⟩
    | some p =>
      obtain ⟨x, domain⟩ := p
      have hxs := unassignedVariable_some_spec g x domain hu
      rw [backtrack_some g c f x domain hu ⟨hxs.1, domain, hxs.2⟩] at h
      have hdomnine : ∀ v ∈ domain, v ∈ nineList :=
        valuesInRange_cellAt_unassigned hr hxs.2
      have inner : ∀ (vals : List ℕ), (∀ v ∈ vals, v ∈ nineList) →
          ∀ (f3 c3 f4 : ℕ) (sol2 : Assignment),
            tryValues vals x g ⟨hxs.1, domain, hxs.2⟩ (c + 1) f3 = .ok (sol2, c3, f4) →
            sol2.length = g.length ∧ DomainsNodup sol2 ∧ ValuesInRange sol2 ∧
              unassignedVariable sol2 = none ∧
              (∀ i v, cellAt g i = .Assigned v → cellAt sol2 i = .Assigned v) ∧
              NoConflicts sol2 ∧ c + 1 < c3 ∧ c3 ≤ c + 1 + unassignedCount g ∧
              f3 ≤ f4 ∧ f4 ≤ f3 + vals.length + 9 * unassignedCount g := by
        intro vals
        induction vals with
        | nil =>
          intro _ f3 c3 f4 sol2 h2
          rw [tryValues_nil] at h2
          cases h2
        | cons val rest ihv =>
          intro hnine f3 c3 f4 sol2 h2
          cases hac : ac3 (g.set x (.Assigned val)) with
          | error e =>
            rw [tryValues_cons_error val rest x g _ _ _ e hac] at h2
            have hlen : (val :: rest).length = rest.length + 1 := rfl
            obtain ⟨a1, a2, a3, a4, a5, a6, a7, a8, a9, a10⟩ :=
              ihv (fun v hv => hnine v (List.mem_cons_of_mem _ hv)) f3 c3 f4 sol2 h2
            exact ⟨a1, a2, a3, a4, a5, a6, a7, a8, a9, by omega⟩
          | ok g2 =>
            have hset_nd : DomainsNodup (g.set x (.Assigned val)) :=
              domainsNodup_set hnd x _ trivial
            have hset_r : ValuesInRange (g.set x (.Assigned val)) :=
              valuesInRange_set hr x _ (hnine val (List.mem_cons_self _ _))
            have hbasic := ac3_basic _ g2 hac
            have hg2nd := hbasic.2.2.1 hset_nd
            have hg2r := hbasic.2.2.2 hset_r
            have hg2len : g2.length = g.length := by
              rw [hbasic.2.1, List.length_set]
            have hcountlt : unassignedCount g2 < unassignedCount g := by
              have h3 := ac3_count_le _ _ hac
              have h4 := unassignedCount_set_assigned_lt g x val domain hxs.2 hxs.1
              omega
            cases hb : backtrack g2 (c + 1) f3 with
            | ok res =>
              rw [tryValues_cons_ok_ok val rest x g _ _ _ g2 res hac hb] at h2
              injection h2 with h2
              subst h2
              have hml := ih g2 (c + 1) f3 sol2 c3 f4 (by omega) hg2nd hg2r hb
              have hextends : ∀ i v, cellAt g i = .Assigned v → cellAt sol2 i = .Assigned v := by
                intro i v hv
                have hix : x ≠ i := by
                  intro he
                  rw [← he, hxs.2] at hv
                  cases hv
                have h5 : cellAt (g.set x (.Assigned val)) i = .Assigned v := by
                  rw [cellAt_set_ne g x i _ hix]
                  exact hv
                exact hml.2.2.2.2.1 i v (hbasic.1.assigned h5)
              have hnc : NoConflicts sol2 := by
                rcases hml.2.2.2.2.2.1 with ⟨hn, he⟩ | hnc
                · rw [he]
                  exact ac3_ok_noConflicts _ g2 hset_nd hac
                · exact hnc
              refine ⟨hml.1.trans hg2len, hml.2.1, hml.2.2.1, hml.2.2.2.1, hextends,
                hnc, ?_, ?_, ?_, ?_⟩
              · have := hml.2.2.2.2.2.2.1
                omega
              · have := hml.2.2.2.2.2.2.2.1
                omega
              · exact hml.2.2.2.2.2.2.2.2.1
              · have := hml.2.2.2.2.2.2.2.2.2
                omega
            | error e =>
              rw [tryValues_cons_ok_error val rest x g _ _ _ g2 e hac hb] at h2
              have hlen : (val :: rest).length = rest.length + 1 := rfl
              obtain ⟨a1, a2, a3, a4, a5, a6, a7, a8, a9, a10⟩ :=
                ihv (fun v hv => hnine v (List.mem_cons_of_mem _ hv)) (f3 + 1) c3 f4 sol2 h2
              exact ⟨a1, a2, a3, a4, a5, a6, a7, a8, by omega, by omega⟩
      have hdomlen : domain.length ≤ 9 := by
        have hnodup : domain.Nodup := domainsNodup_cellAt hnd x domain hxs.2
        have hsub : domain ⊆ nineList := fun v hv => hdomnine v hv
        have hle := (hnodup.subperm hsub).length_le
        have h9 : nineList.length = 9 := rfl
        omega
      obtain ⟨h1, h2, h3, h4, h5, h6, h7, h8, h9, h10⟩ := inner domain hdomnine f c2 f2 sol h
      exact ⟨h1, h2, h3, h4, h5, Or.inr h6, by omega, h8, h9, by omega⟩

theorem tryValues_all_error (x : ℕ) (g : Assignment)
    (hall : ∀ val, ac3 (g.set x (.Assigned val)) = .error ("inconsistent")) :
    ∀ (vals : List ℕ) (hx : _) (c f : ℕ),
      tryValues vals x g hx c f = .error ("failure") := by
  intro vals
  induction vals with
  | nil =>
    intro hx c f
    exact tryValues_nil x g hx c f
  | cons val rest ih =>
    intro hx c f
    rw [tryValues_cons_error val rest x g hx c f ("inconsistent") (hall val)]
    exact ih hx c f

theorem tryValues_error_msg (x : ℕ) (g : Assignment) :
    ∀ (vals : List ℕ) (hx : _) (c f : ℕ) (e : String),
      tryValues vals x g hx c f = .error e → e = ("failure") := by
  intro vals
  induction vals with
  | nil =>
    intro hx c f e h
    rw [tryValues_nil] at h
    injection h with he
    exact he.symm
  | cons val rest ih =>
    intro hx c f e h
    cases hac : ac3 (g.set x (.Assigned val)) with
    | error e2 =>
      rw [tryValues_cons_error val rest x g hx c f e2 hac] at h
      exact ih hx c f e h
    | ok g2 =>
      cases hb : backtrack g2 c f with
      | ok res =>
        rw [tryValues_cons_ok_ok val rest x g hx c f g2 res hac hb] at h
        cases h
      | error e2 =>
        rw [tryValues_cons_ok_error val rest x g hx c f g2 e2 hac hb] at h
        exact ih hx c (f + 1) e h

/-- The only failure `backtrack` reports is the final `bail!("failure")`:
the search-exhausted signal. -/
theorem backtrack_error_msg (g : Assignment) (c f : ℕ) (e : String)
    (h : backtrack g c f = .error e) : e = ("failure") := by
  cases hu : unassignedVariable g with
  | none =>
    rw [backtrack_none g c f hu] at h
    cases h
  | some p =>
    obtain ⟨x, domain⟩ := p
    have hxs := unassignedVariable_some_spec g x domain hu
    rw [backtrack_some g c f x domain hu ⟨hxs.1, domain, hxs.2⟩] at h
    exact tryValues_error_msg x g domain _ (c + 1) f e h

/-!  Units: rows, columns, boxes. -/

instance (x y : ℕ) : Decidable (sameRow x y) :=
  inferInstanceAs (Decidable (x / 9 = y / 9))

instance (x y : ℕ) : Decidable (sameCol x y) :=
  inferInstanceAs (Decidable (x % 9 = y % 9))

instance (x y : ℕ) : Decidable (sameBox x y) :=
  inferInstanceAs (Decidable (x / 9 / 3 = y / 9 / 3 ∧ x % 9 / 3 = y % 9 / 3))

instance (x y : ℕ) : Decidable (sameUnit x y) :=
  inferInstanceAs (Decidable (sameRow x y ∨ sameCol x y ∨ sameBox x y))

theorem sameUnit_mem_gc_aux : ∀ x < 81, ∀ y < 81,
    x = y ∨ ¬ sameUnit x y ∨ y ∈ generateConstraints x := by decide

/-- `generate_constraints x` contains every other cell of `x`'s row, column,
and box (checked over all 81 x 81 index pairs). -/
theorem sameUnit_mem_gc : ∀ x < 81, ∀ y < 81, x ≠ y → sameUnit x y →
    y ∈ generateConstraints x := by
  intro x hx y hy hne hsu
  rcases sameUnit_mem_gc_aux x hx y hy with h | h | h
  · exact absurd h hne
  · exact absurd hsu h
  · exact h

theorem row_facts : ∀ r < 9, (rowIndices r).Nodup ∧ (rowIndices r).length = 9 ∧
    (∀ i ∈ rowIndices r, i < 81) ∧
    (∀ i ∈ rowIndices r, ∀ j ∈ rowIndices r, i = j ∨ j ∈ generateConstraints i) := by
  decide

theorem col_facts : ∀ c < 9, (colIndices c).Nodup ∧ (colIndices c).length = 9 ∧
    (∀ i ∈ colIndices c, i < 81) ∧
    (∀ i ∈ colIndices c, ∀ j ∈ colIndices c, i = j ∨ j ∈ generateConstraints i) := by
  decide

theorem box_facts : ∀ b < 9, (boxIndices b).Nodup ∧ (boxIndices b).length = 9 ∧
    (∀ i ∈ boxIndices b, i < 81) ∧
    (∀ i ∈ boxIndices b, ∀ j ∈ boxIndices b, i = j ∨ j ∈ generateConstraints i) := by
  decide

theorem cellAt_assigned_valueAt (g : Assignment) (i : ℕ)
    (hfull : unassignedVariable g = none) (hi : i < g.length) :
    cellAt g i = .Assigned (valueAt g i) := by
  obtain ⟨v, hv⟩ := (unassignedVariable_none_iff g).mp hfull i hi
  rw [hv, valueAt, hv]

theorem unit_values_perm (g : Assignment) (hnc : NoConflicts g)
    (hfull : unassignedVariable g = none) (hr : ValuesInRange g) (hlen : g.length = 81)
    (u : List ℕ) (hnodup : u.Nodup) (hlen9 : u.length = 9)
    (hmem : ∀ i ∈ u, i < 81)
    (hpairs : ∀ i ∈ u, ∀ j ∈ u, i = j ∨ j ∈ generateConstraints i) :
    List.Perm (unitValues g u) nineList := by
  have hcell : ∀ i ∈ u, cellAt g i = .Assigned (valueAt g i) := by
    intro i hi
    exact cellAt_assigned_valueAt g i hfull (by rw [hlen]; exact hmem i hi)
  have hp : u.Pairwise (fun i j => valueAt g i ≠ valueAt g j) := by
    refine hnodup.imp_of_mem ?_
    intro i j hi hj hne
    rcases hpairs i hi j hj with h | h
    · exact absurd h hne
    · intro hveq
      exact hnc i (valueAt g i) (hcell i hi) j h (valueAt g j)
        (by rw [hcell j hj]) hveq.symm
  have hvnodup : (unitValues g u).Nodup := by
    rw [unitValues, List.Nodup, List.pairwise_map]
    exact hp
  have hsub : unitValues g u ⊆ nineList := by
    intro v hv
    rw [unitValues, List.mem_map] at hv
    obtain ⟨i, hi, hvi⟩ := hv
    subst hvi
    exact valuesInRange_cellAt_assigned hr (hcell i hi)
  have hsp := hvnodup.subperm hsub
  obtain ⟨l2, hperm, hsl⟩ := hsp
  have hlen2 : l2.length = nineList.length := by
    rw [hperm.length_eq]
    simp [unitValues, hlen9, nineList]
  rw [← hsl.eq_of_length hlen2]
  exact hperm.symm

/-- A fully assigned, conflict-free, in-range 81-cell grid is a valid Sudoku. -/
theorem validSudoku_of_noConflicts (g : Assignment) (hnc : NoConflicts g)
    (hfull : unassignedVariable g = none) (hr : ValuesInRange g)
    (hlen : g.length = 81) : ValidSudoku g := by
  refine ⟨?_, ?_, ?_⟩
  · intro r hr9
    obtain ⟨h1, h2, h3, h4⟩ := row_facts r hr9
    exact unit_values_perm g hnc hfull hr hlen _ h1 h2 h3 h4
  · intro c hc9
    obtain ⟨h1, h2, h3, h4⟩ := col_facts c hc9
    exact unit_values_perm g hnc hfull hr hlen _ h1 h2 h3 h4
  · intro b hb9
    obtain ⟨h1, h2, h3, h4⟩ := box_facts b hb9
    exact unit_values_perm g hnc hfull hr hlen _ h1 h2 h3 h4

/-!  Parsing. -/

theorem mem_nineList (v : ℕ) : v ∈ nineList ↔ 1 ≤ v ∧ v ≤ 9 := by
  simp only [nineList, List.mem_cons, List.not_mem_nil, or_false]
  omega

theorem charToDigit_le (c : Char) (n : ℕ) (h : charToDigit c = some n) : n ≤ 9 := by
  rw [charToDigit] at h
  split at h
  next hc =>
    injection h with he
    omega
  next => cases h

theorem parseVars_wf (ords : ℕ → List ℕ)
    (hords : ∀ i, (ords i).Nodup ∧ ∀ u ∈ ords i, u ∈ nineList) :
    ∀ (cs : List Char) (i : ℕ) (vs : List Variable),
      parseVars ords i cs = .ok vs → ∀ v ∈ vs, nodupVar v ∧ rangeVar v := by
  intro cs
  induction cs with
  | nil =>
    intro i vs h v hv
    simp only [parseVars] at h
    injection h with h
    subst h
    cases hv
  | cons c cs ih =>
    intro i vs h v hv
    simp only [parseVars] at h
    split at h
    next => cases h
    next hc =>
      split at h
      next => cases h
      next vs2 heq =>
        injection h with h
        subst h
        rcases List.mem_cons.mp hv with h2 | h2
        · subst h2
          exact ⟨(hords i).1, (hords i).2⟩
        · exact ih (i + 1) vs2 heq v h2
    next n hc =>
      split at h
      next => cases h
      next vs2 heq =>
        injection h with h
        subst h
        rcases List.mem_cons.mp hv with h2 | h2
        · subst h2
          refine ⟨trivial, ?_⟩
          have hle := charToDigit_le c (n + 1) hc
          rw [rangeVar, mem_nineList]
          omega
        · exact ih (i + 1) vs2 heq v h2

theorem fromFileChars_wf (ords : ℕ → List ℕ)
    (hords : ∀ i, (ords i).Nodup ∧ ∀ u ∈ ords i, u ∈ nineList)
    (cs : List Char) (g : Assignment) (h : fromFileChars ords cs = .ok g) :
    g.length = 81 ∧ DomainsNodup g ∧ ValuesInRange g := by
  rw [fromFileChars] at h
  split at h
  next => cases h
  next vs heq =>
    split at h
    next hlen =>
      injection h with h
      subst h
      exact ⟨hlen,
        fun v hv => (parseVars_wf ords hords _ 0 vs heq v hv).1,
        fun v hv => (parseVars_wf ords hords _ 0 vs heq v hv).2⟩
    next => cases h

theorem parseVars_congr (ords1 ords2 : ℕ → List ℕ) (h : ∀ i, ords1 i = ords2 i) :
    ∀ (cs : List Char) (i : ℕ), parseVars ords1 i cs = parseVars ords2 i cs := by
  intro cs
  induction cs with
  | nil => intro i; rfl
  | cons c cs ih =>
    intro i
    simp only [parseVars]
    rw [h i, ih (i + 1)]

/-- Two parses of the same characters agree when the per-cell domain
enumeration orders agree. -/
theorem fromFileChars_congr (ords1 ords2 : ℕ → List ℕ) (h : ∀ i, ords1 i = ords2 i)
    (cs : List Char) : fromFileChars ords1 cs = fromFileChars ords2 cs := by
  rw [fromFileChars, fromFileChars, parseVars_congr ords1 ords2 h]

/-!  Bridge for the spec-modelled totals. -/

theorem searchTotals_none (g : Assignment) (hu : unassignedVariable g = none) :
    searchTotals g = (1, 0) := by
  rw [searchTotals]
  split
  · rfl
  next x domain heq =>
    rw [hu] at heq
    cases heq

theorem searchTotals_some (g : Assignment) (x : ℕ) (domain : List ℕ)
    (hu : unassignedVariable g = some (x, domain))
    (hx : x < g.length ∧ ∃ d0, cellAt g x = Variable.Unassigned d0) :
    searchTotals g = (1 + (searchTotalsVals domain x g hx).1,
      (searchTotalsVals domain x g hx).2) := by
  rw [searchTotals]
  split
  next heq =>
    rw [hu] at heq
    cases heq
  next x2 domain2 heq =>
    rw [hu] at heq
    injection heq with heq
    injection heq with h1 h2
    subst h1
    subst h2
    rfl

theorem searchTotalsVals_nil (x : ℕ) (g : Assignment) (hx : _) :
    searchTotalsVals [] x g hx = (0, 0) := by
  rw [searchTotalsVals]

theorem searchTotalsVals_cons_error (val : ℕ) (rest : List ℕ) (x : ℕ) (g : Assignment)
    (hx : _) (e : String) (hac : ac3 (g.set x (.Assigned val)) = .error e) :
    searchTotalsVals (val :: rest) x g hx = searchTotalsVals rest x g hx := by
  rw [searchTotalsVals]
  split
  next => rfl
  next g2 heq =>
    rw [hac] at heq
    cases heq

theorem searchTotalsVals_cons_ok (val : ℕ) (rest : List ℕ) (x : ℕ) (g : Assignment)
    (hx : _) (g2 : Assignment) (hac : ac3 (g.set x (.Assigned val)) = .ok g2) :
    searchTotalsVals (val :: rest) x g hx =
      if (backtrack g2 0 0).isOk then searchTotals g2
      else ((searchTotals g2).1 + (searchTotalsVals rest x g hx).1,
        (searchTotals g2).2 + 1 + (searchTotalsVals rest x g hx).2) := by
  rw [searchTotalsVals]
  split
  next heq =>
    rw [hac] at heq
    cases heq
  next g3 heq =>
    rw [hac] at heq
    injection heq with heq
    subst heq
    rfl

theorem searchTotalsValsF_eq (st : Assignment → ℕ × ℕ)
    (bt : Assignment → ℕ → ℕ → Except String (Assignment × ℕ × ℕ))
    (x : ℕ) (g : Assignment)
    (hx : x < g.length ∧ ∃ d0, cellAt g x = Variable.Unassigned d0)
    (hst : ∀ g2, unassignedCount g2 < unassignedCount g → st g2 = searchTotals g2)
    (hbt : ∀ g2 c f, unassignedCount g2 < unassignedCount g →
      bt g2 c f = backtrack g2 c f) :
    ∀ vals, searchTotalsValsF st bt vals x g = searchTotalsVals vals x g hx := by
  intro vals
  induction vals with
  | nil =>
    rw [searchTotalsVals_nil]
    rfl
  | cons val rest ih =>
    cases hac : ac3 (g.set x (.Assigned val)) with
    | error e =>
      rw [searchTotalsVals_cons_error val rest x g hx e hac]
      have hacF : ac3F (g.set x (.Assigned val)) = .error e := by rw [ac3F_eq]; exact hac
      simp only [searchTotalsValsF]
      rw [hacF]
      exact ih
    | ok g2 =>
      have hlt : unassignedCount g2 < unassignedCount g := by
        obtain ⟨hxlen, d0, hd0⟩ := hx
        have h1 := ac3_count_le _ _ hac
        have h2 := unassignedCount_set_assigned_lt g x val d0 hd0 hxlen
        omega
      rw [searchTotalsVals_cons_ok val rest x g hx g2 hac]
      have hacF : ac3F (g.set x (.Assigned val)) = .ok g2 := by rw [ac3F_eq]; exact hac
      simp only [searchTotalsValsF]
      rw [hacF]
      simp only [hst g2 hlt, hbt g2 0 0 hlt, ih]

theorem searchTotalsF_eq (fuel : ℕ) : ∀ (g : Assignment),
    unassignedCount g < fuel → searchTotalsF fuel g = searchTotals g := by
  induction fuel with
  | zero => intro g h; exact absurd h (Nat.not_lt_zero _)
  | succ fuel ih =>
    intro g h
    cases hu : unassignedVariable g with
    | none =>
      rw [searchTotals_none g hu]
      simp only [searchTotalsF]
      rw [hu]
    | some p =>
      obtain ⟨x, domain⟩ := p
      have hxs := unassignedVariable_some_spec g x domain hu
      rw [searchTotals_some g x domain hu ⟨hxs.1, domain, hxs.2⟩]
      simp only [searchTotalsF]
      rw [hu]
      have hv := searchTotalsValsF_eq (searchTotalsF fuel) (backtrackF fuel) x g
        ⟨hxs.1, domain, hxs.2⟩ (fun g2 hlt => ih g2 (by omega))
        (fun g2 c f hlt => backtrackF_eq fuel g2 c f (by omega)) domain
      show (1 + (searchTotalsValsF (searchTotalsF fuel) (backtrackF fuel) domain x g).1,
        (searchTotalsValsF (searchTotalsF fuel) (backtrackF fuel) domain x g).2) =
        (1 + (searchTotalsVals domain x g ⟨hxs.1, domain, hxs.2⟩).1,
          (searchTotalsVals domain x g ⟨hxs.1, domain, hxs.2⟩).2)
      rw [hv]

/-!  Rendering. -/

theorem renderFrom_append (xs : List Variable) : ∀ (i : ℕ) (ys : List Variable),
    renderFrom i (xs ++ ys) =
      (renderFrom i xs).bind (fun s1 =>
        (renderFrom (i + xs.length) ys).map (fun s2 => s1 ++ s2)) := by
  induction xs with
  | nil =>
    intro i ys
    simp only [List.nil_append, renderFrom, List.length_nil, Nat.add_zero]
    cases renderFrom i ys with
    | none => rfl
    | some s => rfl
  | cons v xs ih =>
    intro i ys
    simp only [List.cons_append, renderFrom]
    cases renderCell v with
    | none => rfl
    | some c =>
      rw [show xs.append ys = xs ++ ys from rfl, ih (i + 1) ys]
      have hidx : i + 1 + xs.length = i + (v :: xs).length := by
        simp only [List.length_cons]
        omega
      rw [hidx]
      cases renderFrom (i + 1) xs with
      | none => rfl
      | some s1 =>
        cases renderFrom (i + (v :: xs).length) ys with
        | none => rfl
        | some s2 => simp [String.append_assoc]

theorem repr_length_one (w : ℕ) (h1 : 1 ≤ w) (h2 : w ≤ 9) : (Nat.repr w).length = 1 := by
  interval_cases w <;> rfl

theorem renderFrom_row (k : ℕ) (hk : k ≤ 8) (cells : List Variable)
    (hlen : cells.length = 9)
    (hass : ∀ v ∈ cells, ∃ w, v = .Assigned w ∧ 1 ≤ w ∧ w ≤ 9) :
    ∃ s, renderFrom (9 * k) cells = some ((if k = 0 then "" else "\n") ++ s) ∧
      s.length = 9 := by
  rcases cells with _ | ⟨a0, cells⟩; · simp at hlen
  rcases cells with _ | ⟨a1, cells⟩; · simp at hlen
  rcases cells with _ | ⟨a2, cells⟩; · simp at hlen
  rcases cells with _ | ⟨a3, cells⟩; · simp at hlen
  rcases cells with _ | ⟨a4, cells⟩; · simp at hlen
  rcases cells with _ | ⟨a5, cells⟩; · simp at hlen
  rcases cells with _ | ⟨a6, cells⟩; · simp at hlen
  rcases cells with _ | ⟨a7, cells⟩; · simp at hlen
  rcases cells with _ | ⟨a8, cells⟩; · simp at hlen
  rcases cells with _ | ⟨a9, cells⟩
  case cons.cons.cons.cons.cons.cons.cons.cons.cons.cons => simp at hlen
  obtain ⟨w0, he0, hw0a, hw0b⟩ := hass a0 (by simp)
  obtain ⟨w1, he1, hw1a, hw1b⟩ := hass a1 (by simp)
  obtain ⟨w2, he2, hw2a, hw2b⟩ := hass a2 (by simp)
  obtain ⟨w3, he3, hw3a, hw3b⟩ := hass a3 (by simp)
  obtain ⟨w4, he4, hw4a, hw4b⟩ := hass a4 (by simp)
  obtain ⟨w5, he5, hw5a, hw5b⟩ := hass a5 (by simp)
  obtain ⟨w6, he6, hw6a, hw6b⟩ := hass a6 (by simp)
  obtain ⟨w7, he7, hw7a, hw7b⟩ := hass a7 (by simp)
  obtain ⟨w8, he8, hw8a, hw8b⟩ := hass a8 (by simp)
  subst he0; subst he1; subst he2; subst he3; subst he4
  subst he5; subst he6; subst he7; subst he8
  refine ⟨Nat.repr w0 ++ (Nat.repr w1 ++ (Nat.repr w2 ++ (Nat.repr w3 ++ (Nat.repr w4 ++
    (Nat.repr w5 ++ (Nat.repr w6 ++ (Nat.repr w7 ++ (Nat.repr w8 ++ "")))))))), ?_, ?_⟩
  · simp only [renderFrom, renderCell]
    have hc0 : (if 9 * k % 9 = 0 ∧ 9 * k ≠ 0 then ("\n" : String) else "") =
        (if k = 0 then "" else "\n") := by
      rcases Nat.eq_zero_or_pos k with hk0 | hk0
      · subst hk0
        rw [if_neg (by omega), if_pos rfl]
      · rw [if_pos (by constructor <;> omega), if_neg (by omega)]
    have hcm : ∀ m, 1 ≤ m → m ≤ 8 →
        (if (9 * k + m) % 9 = 0 ∧ 9 * k + m ≠ 0 then ("\n" : String) else "") = "" := by
      intro m hm1 hm2
      rw [if_neg]
      intro hcon
      omega
    rw [hc0]
    rw [show 9 * k + 1 + 1 = 9 * k + 2 by omega, show 9 * k + 2 + 1 = 9 * k + 3 by omega,
      show 9 * k + 3 + 1 = 9 * k + 4 by omega, show 9 * k + 4 + 1 = 9 * k + 5 by omega,
      show 9 * k + 5 + 1 = 9 * k + 6 by omega, show 9 * k + 6 + 1 = 9 * k + 7 by omega,
      show 9 * k + 7 + 1 = 9 * k + 8 by omega]
    rw [hcm 1 (by omega) (by omega), hcm 2 (by omega) (by omega),
      hcm 3 (by omega) (by omega), hcm 4 (by omega) (by omega),
      hcm 5 (by omega) (by omega), hcm 6 (by omega) (by omega),
      hcm 7 (by omega) (by omega), hcm 8 (by omega) (by omega)]
    rfl
  · simp only [String.length_append, String.length_empty,
      repr_length_one w0 hw0a hw0b, repr_length_one w1 hw1a hw1b,
      repr_length_one w2 hw2a hw2b, repr_length_one w3 hw3a hw3b,
      repr_length_one w4 hw4a hw4b, repr_length_one w5 hw5a hw5b,
      repr_length_one w6 hw6a hw6b, repr_length_one w7 hw7a hw7b,
      repr_length_one w8 hw8a hw8b]

theorem renderFrom_rows_suffix : ∀ (j : ℕ), j ≤ 8 → ∀ (l : List Variable),
    l.length = 9 * j → (∀ v ∈ l, ∃ w, v = .Assigned w ∧ 1 ≤ w ∧ w ≤ 9) →
    ∃ rows : List String, renderFrom (9 * (9 - j)) l = some (joinTail rows) ∧
      rows.length = j ∧ ∀ s ∈ rows, s.length = 9 := by
  intro j
  induction j with
  | zero =>
    intro _ l hlen _
    have hnil : l = [] := List.eq_nil_of_length_eq_zero (by omega)
    subst hnil
    exact ⟨[], rfl, rfl, fun s hs => absurd hs (List.not_mem_nil s)⟩
  | succ j ih =>
    intro hj l hlen hass
    have hsplit : l = l.take 9 ++ l.drop 9 := (List.take_append_drop 9 l).symm
    have hlent : (l.take 9).length = 9 := by
      rw [List.length_take]
      omega
    have hlend : (l.drop 9).length = 9 * j := by
      rw [List.length_drop]
      omega
    have hk : 9 - (j + 1) ≤ 8 := by omega
    obtain ⟨s0, hs0, hs0len⟩ := renderFrom_row (9 - (j + 1)) hk (l.take 9) hlent
      (fun v hv => hass v (List.take_subset 9 l hv))
    obtain ⟨rows, hrows, hrowslen, hrowsmem⟩ := ih (by omega) (l.drop 9) hlend
      (fun v hv => hass v (List.drop_subset 9 l hv))
    rw [if_neg (by omega)] at hs0
    refine ⟨s0 :: rows, ?_, by simp [hrowslen], ?_⟩
    · conv in renderFrom _ l => rw [hsplit]
      rw [renderFrom_append (l.take 9) (9 * (9 - (j + 1))) (l.drop 9)]
      rw [hs0, hlent]
      have hidx : 9 * (9 - (j + 1)) + 9 = 9 * (9 - j) := by omega
      rw [hidx, hrows]
      simp only [Option.bind, Option.map]
      rw [joinTail, String.append_assoc]
    · intro s hs
      rcases List.mem_cons.mp hs with h2 | h2
      · subst h2
        exact hs0len
      · exact hrowsmem s h2

/-- Rendering a fully assigned 81-cell grid with values 1..9 yields nine rows
of nine characters joined by newlines. -/
theorem render_structure (g : Assignment) (hlen : g.length = 81)
    (hass : ∀ v ∈ g, ∃ w, v = .Assigned w ∧ 1 ≤ w ∧ w ≤ 9) :
    ∃ rows : List String, render g = some (joinRows rows) ∧ rows.length = 9 ∧
      ∀ s ∈ rows, s.length = 9 := by
  have hsplit : g = g.take 9 ++ g.drop 9 := (List.take_append_drop 9 g).symm
  have hlent : (g.take 9).length = 9 := by
    rw [List.length_take]
    omega
  have hlend : (g.drop 9).length = 9 * 8 := by
    rw [List.length_drop]
    omega
  obtain ⟨s0, hs0, hs0len⟩ := renderFrom_row 0 (by omega) (g.take 9) hlent
    (fun v hv => hass v (List.take_subset 9 g hv))
  obtain ⟨rows, hrows, hrowslen, hrowsmem⟩ := renderFrom_rows_suffix 8 (by omega)
    (g.drop 9) hlend (fun v hv => hass v (List.drop_subset 9 g hv))
  rw [if_pos rfl] at hs0
  refine ⟨("" ++ s0) :: rows, ?_, by simp [hrowslen], ?_⟩
  · rw [render]
    conv in renderFrom 0 g => rw [hsplit]
    rw [show (0 : ℕ) = 9 * 0 by omega] at hs0 ⊢
    rw [renderFrom_append (g.take 9) (9 * 0) (g.drop 9)]
    rw [hs0, hlent]
    rw [show 9 * 0 + 9 = 9 * (9 - 8) by omega, hrows]
    simp only [Option.bind, Option.map]
    rw [joinRows]
  · intro s hs
    rcases List.mem_cons.mp hs with h2 | h2
    · subst h2
      rw [String.length_append, String.length_empty, hs0len]
    · exact hrowsmem s h2

/-- Rendering stops with the panic (modelled `none`) at any unassigned cell. -/
theorem render_unassigned_none (g : Assignment) :
    ∀ (i0 : ℕ), (∃ i d, cellAt g i = .Unassigned d ∧ i < g.length) →
      renderFrom i0 g = none := by
  induction g with
  | nil =>
    intro i0 h
    obtain ⟨i, d, _, hi⟩ := h
    simp at hi
  | cons v rest ih =>
    intro i0 h
    obtain ⟨i, d, hc, hi⟩ := h
    cases i with
    | zero =>
      rw [cellAt_cons_zero] at hc
      subst hc
      rfl
    | succ m =>
      rw [cellAt_cons_succ] at hc
      simp only [renderFrom]
      cases renderCell v with
      | none => rfl
      | some c =>
        rw [ih (i0 + 1) ⟨m, d, hc, by simpa using hi⟩]

/-!  Decidability instances for concrete checking. -/

instance {e a : Type} [DecidableEq e] [DecidableEq a] : DecidableEq (Except e a) := fun x y =>
  match x, y with
  | .ok u, .ok v =>
    if h : u = v then isTrue (by rw [h]) else isFalse (by intro hc; cases hc; exact h rfl)
  | .error u, .error v =>
    if h : u = v then isTrue (by rw [h]) else isFalse (by intro hc; cases hc; exact h rfl)
  | .ok u, .error v => isFalse (by intro hc; cases hc)
  | .error u, .ok v => isFalse (by intro hc; cases hc)

instance (g : Assignment) : Decidable (DomainsNodup g) :=
  inferInstanceAs (Decidable (∀ v ∈ g, nodupVar v))

instance (g : Assignment) : Decidable (ValuesInRange g) :=
  inferInstanceAs (Decidable (∀ v ∈ g, rangeVar v))

instance (g : Assignment) : Decidable (ValidSudoku g) :=
  inferInstanceAs (Decidable ((∀ r < 9, List.Perm (unitValues g (rowIndices r)) nineList) ∧
    (∀ c < 9, List.Perm (unitValues g (colIndices c)) nineList) ∧
    (∀ b < 9, List.Perm (unitValues g (boxIndices b)) nineList)))

/-!  Shared helpers for the claim proofs. -/

theorem cellAt_replicate (v : Variable) : ∀ (n i : ℕ), i < n →
    cellAt (List.replicate n v) i = v := by
  intro n
  induction n with
  | zero => intro i hi; omega
  | succ m ih =>
    intro i hi
    cases i with
    | zero => rfl
    | succ k =>
      rw [List.replicate_succ, cellAt_cons_succ]
      exact ih k (by omega)

/-- A grid whose first two cells hold the same assigned value has no valid
completion: any completion would repeat that value in row 0. -/
theorem no_completion_of_dup_row0 (g : Assignment) (v : ℕ)
    (h0 : cellAt g 0 = .Assigned v) (h1 : cellAt g 1 = .Assigned v) :
    ¬ ∃ sol, ValidCompletion g sol := by
  rintro ⟨sol, hlen, hfull, hext, hvalid⟩
  have hv0 : valueAt sol 0 = v := by rw [valueAt, hext 0 v h0]
  have hv1 : valueAt sol 1 = v := by rw [valueAt, hext 1 v h1]
  have hperm := hvalid.1 0 (by omega)
  have hnodup : (unitValues sol (rowIndices 0)).Nodup :=
    (hperm.nodup_iff).mpr (by decide)
  rw [show rowIndices 0 = [0, 1, 2, 3, 4, 5, 6, 7, 8] from by decide] at hnodup
  simp only [unitValues, List.map_cons, List.map_nil, List.nodup_cons, List.mem_cons] at hnodup
  exact hnodup.1 (Or.inl (by rw [hv0, hv1]))

/-- The assignments of a successful `backtrack` run always extend the input
assignments (no well-formedness assumptions needed). -/
theorem backtrack_extends : ∀ (n : ℕ) (g : Assignment) (c f : ℕ) (sol : Assignment)
    (c2 f2 : ℕ), unassignedCount g ≤ n → backtrack g c f = .ok (sol, c2, f2) →
    ∀ i v, cellAt g i = .Assigned v → cellAt sol i = .Assigned v := by
  intro n
  induction n with
  | zero =>
    intro g c f sol c2 f2 hcount h
    cases hu : unassignedVariable g with
    | none =>
      rw [backtrack_none g c f hu] at h
      injection h with h
      injection h with h1 h2
      subst h1
      exact fun i v hv => hv
    | some p =>
      obtain ⟨x, domain⟩ := p
      have hxs := unassignedVariable_some_spec g x domain hu
      have := unassignedCount_pos g x domain hxs.2 hxs.1
      omega
  | succ n ih =>
    intro g c f sol c2 f2 hcount h
    cases hu : unassignedVariable g with
    | none =>
      rw [backtrack_none g c f hu] at h
      injection h with h
      injection h with h1 h2
      subst h1
      exact fun i v hv => hv
    | some p =>
      obtain ⟨x, domain⟩ := p
      have hxs := unassignedVariable_some_spec g x domain hu
      rw [backtrack_some g c f x domain hu ⟨hxs.1, domain, hxs.2⟩] at h
      have inner : ∀ (vals : List ℕ) (f3 c3 f4 : ℕ) (sol2 : Assignment),
          tryValues vals x g ⟨hxs.1, domain, hxs.2⟩ (c + 1) f3 = .ok (sol2, c3, f4) →
          ∀ i v, cellAt g i = .Assigned v → cellAt sol2 i = .Assigned v := by
        intro vals
        induction vals with
        | nil =>
          intro f3 c3 f4 sol2 h2
          rw [tryValues_nil] at h2
          cases h2
        | cons val rest ihv =>
          intro f3 c3 f4 sol2 h2
          cases hac : ac3 (g.set x (.Assigned val)) with
          | error e =>
            rw [tryValues_cons_error val rest x g _ _ _ e hac] at h2
            exact ihv f3 c3 f4 sol2 h2
          | ok g2 =>
            have hcountlt : unassignedCount g2 < unassignedCount g := by
              have h3 := ac3_count_le _ _ hac
              have h4 := unassignedCount_set_assigned_lt g x val domain hxs.2 hxs.1
              omega
            cases hb : backtrack g2 (c + 1) f3 with
            | ok res =>
              rw [tryValues_cons_ok_ok val rest x g _ _ _ g2 res hac hb] at h2
              injection h2 with h2
              subst h2
              intro i v hv
              have hix : x ≠ i := by
                intro he
                rw [← he, hxs.2] at hv
                cases hv
              have h5 : cellAt (g.set x (.Assigned val)) i = .Assigned v := by
                rw [cellAt_set_ne g x i _ hix]
                exact hv
              exact ih g2 (c + 1) f3 sol2 c3 f4 (by omega) hb i v
                ((ac3_basic _ g2 hac).1.assigned h5)
            | error e =>
              rw [tryValues_cons_ok_error val rest x g _ _ _ g2 e hac hb] at h2
              exact ihv (f3 + 1) c3 f4 sol2 h2
      exact inner domain f c2 f2 sol h

/-!  The claims. -/

/-- C1 (counterexample): the all-ones text is accepted by the parser, the
top-level solve returns it as a successful solution, and its first row does
not contain each of 1..9 exactly once.  The claim as stated is false: a fully
assigned input is returned without any consistency check. -/
theorem c1_counterexample :
    fromFileChars ascOrder (repChars 1) = .ok allOnes ∧
    backtrack allOnes 0 0 = .ok (allOnes, 1, 0) ∧
    ¬ List.Perm (unitValues allOnes (rowIndices 0)) nineList := by
  refine ⟨by decide, ?_, by decide⟩
  rw [← backtrackF_eq 1 allOnes 0 0 (by decide)]
  decide

/-- C1 (amended): for every accepted input that still has at least one
Unassigned cell, any solution grid returned by the top-level solve has every
row, column, and 3x3 box containing each of 1..9 exactly once. -/
theorem c1_validity (ords : ℕ → List ℕ) (cs : List Char) (g sol : Assignment)
    (c f c2 f2 : ℕ) (hords : ∀ i, List.Perm (ords i) nineList)
    (hparse : fromFileChars ords cs = .ok g)
    (hblank : unassignedVariable g ≠ none)
    (hrun : backtrack g c f = .ok (sol, c2, f2)) : ValidSudoku sol := by
  have hords2 : ∀ i, (ords i).Nodup ∧ ∀ u ∈ ords i, u ∈ nineList := by
    intro i
    exact ⟨((hords i).symm.nodup_iff).mp (by decide),
      fun u hu => ((hords i).mem_iff).mp hu⟩
  obtain ⟨hlen, hnd, hr⟩ := fromFileChars_wf ords hords2 cs g hparse
  have hml := backtrack_ok_spec (unassignedCount g) g c f sol c2 f2 (le_refl _) hnd hr hrun
  have hnc : NoConflicts sol := by
    rcases hml.2.2.2.2.2.1 with ⟨hn, _⟩ | hnc
    · exact absurd hn hblank
    · exact hnc
  exact validSudoku_of_noConflicts sol hnc hml.2.2.2.1 hml.2.2.1 (by rw [hml.1, hlen])

/-- C1 (witness): the four-blank puzzle parses, has a blank, solves, and the
theorem yields validity of the returned solution. -/
theorem c1_witness : ValidSudoku Gfull := by
  refine c1_validity ascOrder PChars Pgrid Gfull 0 0 2 0
    (fun _ => List.Perm.refl nineList) (by decide) (by decide) ?_
  rw [← backtrackF_eq 5 Pgrid 0 0 (by decide)]
  decide

/-- C2 (confirmed): after a successful `ac3` run, no Unassigned cell keeps a
candidate equal to the Assigned value of any cell in its row, column, or box. -/
theorem c2_propagation_soundness (g g2 : Assignment) (x y v : ℕ) (d : List ℕ)
    (hnd : DomainsNodup g) (hrun : ac3 g = .ok g2)
    (hx : x < 81) (hy : y < 81) (hne : x ≠ y) (hsu : sameUnit x y)
    (hxv : cellAt g2 x = .Assigned v) (hyd : cellAt g2 y = .Unassigned d) :
    v ∉ d :=
  (ac3_done g g2 hnd hrun x v hxv y (sameUnit_mem_gc x hx y hy hne hsu)).2 d hyd

/-- C2 (witness): on a one-clue grid the clue value 5 is removed from every
constraint neighbour's domain. -/
theorem c2_witness :
    ac3 smallG = .ok smallG2 ∧ (5 : ℕ) ∉ ([1, 2, 3, 4, 6, 7, 8, 9] : List ℕ) := by
  have hrun : ac3 smallG = .ok smallG2 := by
    rw [← ac3F_eq smallG]
    decide
  exact ⟨hrun, c2_propagation_soundness smallG smallG2 0 1 5 [1, 2, 3, 4, 6, 7, 8, 9]
    (by decide) hrun (by decide) (by decide) (by decide) (by decide) (by decide) (by decide)⟩

/-- C3 (counterexample): the all-twos input has two equal clues in row 0, yet
the solve succeeds and returns it: the Propagator never signals Inconsistent
because it is never invoked before (or instead of) branching. -/
theorem c3_counterexample :
    cellAt allTwos 0 = .Assigned 2 ∧ cellAt allTwos 1 = .Assigned 2 ∧ sameRow 0 1 ∧
    backtrack allTwos 0 0 = .ok (allTwos, 1, 0) := by
  refine ⟨by decide, by decide, by decide, ?_⟩
  rw [← backtrackF_eq 1 allTwos 0 0 (by decide)]
  decide

/-- C3 (amended): on an input with two equal clues sharing a unit and at
least one Unassigned cell, branching happens first, but every `ac3` call made
while trying candidates for the first unassigned cell signals `inconsistent`,
so the search rejects every branch and fails (no candidate survives). -/
theorem c3_contradiction_detection (g : Assignment) (a b v x : ℕ)
    (domain : List ℕ) (c f : ℕ) (hnd : DomainsNodup g)
    (ha : a < 81) (hb : b < 81) (hne : a ≠ b) (hsu : sameUnit a b)
    (hva : cellAt g a = .Assigned v) (hvb : cellAt g b = .Assigned v)
    (hu : unassignedVariable g = some (x, domain)) :
    (∀ val, ac3 (g.set x (.Assigned val)) = .error ("inconsistent")) ∧
    backtrack g c f = .error ("failure") := by
  have hxs := unassignedVariable_some_spec g x domain hu
  have hgc : b ∈ generateConstraints a := sameUnit_mem_gc a ha b hb hne hsu
  have hxa : x ≠ a := by
    intro he
    rw [← he, hxs.2] at hva
    cases hva
  have hxb : x ≠ b := by
    intro he
    rw [← he, hxs.2] at hvb
    cases hvb
  have hall : ∀ val, ac3 (g.set x (.Assigned val)) = .error ("inconsistent") := by
    intro val
    refine ac3_dup_error (g.set x (.Assigned val)) a b v
      (domainsNodup_set hnd x (.Assigned val) trivial) hgc ?_ ?_
    · rw [cellAt_set_ne g x a _ hxa]
      exact hva
    · rw [cellAt_set_ne g x b _ hxb]
      exact hvb
  refine ⟨hall, ?_⟩
  rw [backtrack_some g c f x domain hu ⟨hxs.1, domain, hxs.2⟩]
  exact tryValues_all_error x g hall domain _ (c + 1) f

/-- C3 (witness): concrete duplicate-clue grid with one unassigned cell. -/
theorem c3_witness :
    ac3 (U3.set 2 (.Assigned 7)) = .error ("inconsistent") ∧
    backtrack U3 0 0 = .error ("failure") := by
  have h := c3_contradiction_detection U3 0 1 4 2 [1, 2] 0 0 (by decide) (by decide)
    (by decide) (by decide) (by decide) (by decide) (by decide) (by decide)
  exact ⟨h.1 7, h.2⟩

/-- C4 (confirmed): every cell Assigned in the input grid is Assigned to the
same value in any solution `backtrack` returns; neither `backtrack` nor `ac3`
ever changes an already-Assigned cell. -/
theorem c4_fidelity (g : Assignment) (c f : ℕ) (sol : Assignment) (c2 f2 : ℕ)
    (hrun : backtrack g c f = .ok (sol, c2, f2)) :
    ∀ i v, cellAt g i = .Assigned v → cellAt sol i = .Assigned v :=
  backtrack_extends (unassignedCount g) g c f sol c2 f2 (le_refl _) hrun

/-- C4 (witness): the clue 1 at cell 0 of the full grid survives the solve. -/
theorem c4_witness : cellAt Gfull 0 = .Assigned 1 := by
  refine c4_fidelity Gfull 0 0 Gfull 1 0 ?_ 0 1 (by decide)
  rw [← backtrackF_eq 1 Gfull 0 0 (by decide)]
  decide

/-- C5 (counterexample): the all-threes input has no valid completion, yet
the solve terminates successfully instead of reporting search exhaustion. -/
theorem c5_counterexample :
    (¬ ∃ sol, ValidCompletion allThrees sol) ∧
    backtrack allThrees 0 0 = .ok (allThrees, 1, 0) := by
  refine ⟨no_completion_of_dup_row0 allThrees 3 (by decide) (by decide), ?_⟩
  rw [← backtrackF_eq 1 allThrees 0 0 (by decide)]
  decide

/-- C5 (amended): for every accepted input with at least one Unassigned cell
and no valid completion, the search terminates (it is defined by well-founded
recursion on the number of unassigned cells) and reports the search-exhausted
failure. -/
theorem c5_unsolvable (ords : ℕ → List ℕ) (cs : List Char) (g : Assignment)
    (c f : ℕ) (hords : ∀ i, List.Perm (ords i) nineList)
    (hparse : fromFileChars ords cs = .ok g)
    (hblank : unassignedVariable g ≠ none)
    (hnosol : ¬ ∃ sol, ValidCompletion g sol) :
    backtrack g c f = .error ("failure") := by
  have hords2 : ∀ i, (ords i).Nodup ∧ ∀ u ∈ ords i, u ∈ nineList := by
    intro i
    exact ⟨((hords i).symm.nodup_iff).mp (by decide),
      fun u hu => ((hords i).mem_iff).mp hu⟩
  obtain ⟨hlen, hnd, hr⟩ := fromFileChars_wf ords hords2 cs g hparse
  cases hres : backtrack g c f with
  | ok res =>
    obtain ⟨sol, c2, f2⟩ := res
    have hml := backtrack_ok_spec (unassignedCount g) g c f sol c2 f2 (le_refl _)
      hnd hr hres
    have hnc : NoConflicts sol := by
      rcases hml.2.2.2.2.2.1 with ⟨hn, _⟩ | hnc
      · exact absurd hn hblank
      · exact hnc
    exact absurd ⟨sol, hml.1, hml.2.2.2.1, hml.2.2.2.2.1,
      validSudoku_of_noConflicts sol hnc hml.2.2.2.1 hml.2.2.1 (by rw [hml.1, hlen])⟩ hnosol
  | error e =>
    rw [backtrack_error_msg g c f e hres]

/-- C5 (witness): an unsolvable puzzle with a blank cell ends in search
exhaustion. -/
theorem c5_witness : backtrack U5 0 0 = .error ("failure") :=
  c5_unsolvable ascOrder U5Chars U5 0 0 (fun _ => List.Perm.refl nineList)
    (by decide) (by decide)
    (no_completion_of_dup_row0 U5 2 (by decide) (by decide))

/-- C6 (counterexample): the same input characters, parsed under two equally
possible `HashSet` iteration orders, solve to different solution grids, so
two runs of the program need not agree.  The claim as stated is false. -/
theorem c6_counterexample :
    fromFileChars ascOrder PChars = .ok Pgrid ∧
    fromFileChars swapOrder PChars = .ok PgridSwap ∧
    List.Perm (swapOrder 0) nineList ∧
    backtrack Pgrid 0 0 ≠ backtrack PgridSwap 0 0 := by
  refine ⟨by decide, by decide, by decide, ?_⟩
  have h1 : backtrack Pgrid 0 0 = .ok (Gfull, 2, 0) := by
    rw [← backtrackF_eq 5 Pgrid 0 0 (by decide)]
    decide
  have h2 : backtrack PgridSwap 0 0 = .ok (Gswap, 2, 0) := by
    rw [← backtrackF_eq 5 PgridSwap 0 0 (by decide)]
    decide
  rw [h1, h2]
  decide

/-- C6 (amended): solving the same input twice yields the same solution grid
and counters provided the two runs enumerate every cell's candidate set in
the same order; the `HashSet`-backed domains only fix that order within one
run, not across runs. -/
theorem c6_determinism (ords1 ords2 : ℕ → List ℕ) (cs : List Char)
    (hords : ∀ i, ords1 i = ords2 i) (g1 g2 : Assignment)
    (h1 : fromFileChars ords1 cs = .ok g1) (h2 : fromFileChars ords2 cs = .ok g2) :
    g1 = g2 ∧ backtrack g1 0 0 = backtrack g2 0 0 := by
  rw [fromFileChars_congr ords1 ords2 hords cs] at h1
  rw [h1] at h2
  injection h2 with h2
  subst h2
  exact ⟨rfl, rfl⟩

/-- C6 (witness): two runs with identical enumeration orders agree. -/
theorem c6_witness : Pgrid = Pgrid ∧ backtrack Pgrid 0 0 = backtrack Pgrid 0 0 :=
  c6_determinism ascOrder ascOrder PChars (fun _ => rfl) Pgrid Pgrid
    (by decide) (by decide)

/-- C7 (counterexample): on a state whose search tree contains a failed
subtree with its own internal invocations and branch failures, the run
returns `called = 4` and `failed = 1` while the whole tree performs 6
invocations and records 2 candidate-branch failures (`searchTotals`): neither
returned counter is the whole-tree total, because the `Err` of a failed
recursive call carries no counters and everything accumulated inside the
failed subtree is discarded.  The claim as stated is false. -/
theorem c7_counterexample :
    backtrack H7 0 0 = .ok (Gfull, 4, 1) ∧ searchTotals H7 = (6, 2) ∧
      (4 : ℕ) ≠ 0 + 6 ∧ (1 : ℕ) ≠ 0 + 2 := by
  refine ⟨?_, ?_, by decide, by decide⟩
  · rw [← backtrackF_eq 6 H7 0 0 (by decide)]
    decide
  · rw [← searchTotalsF_eq 6 H7 (by decide)]
    decide

/-- C7 (amended): the returned counters record only increments that survive
on the chain of successful calls: `called` strictly grows but is bounded by
one plus the number of unassigned cells, and `failed` never decreases but is
bounded by nine failures per chain node (the at most nine candidates of each
node), regardless of how many invocations and failures the discarded failed
subtrees performed. -/
theorem c7_counters (g : Assignment) (c f : ℕ) (sol : Assignment) (c2 f2 : ℕ)
    (hnd : DomainsNodup g) (hr : ValuesInRange g)
    (hrun : backtrack g c f = .ok (sol, c2, f2)) :
    c < c2 ∧ c2 ≤ c + 1 + unassignedCount g ∧
      f ≤ f2 ∧ f2 ≤ f + 9 * (1 + unassignedCount g) := by
  have hml := backtrack_ok_spec (unassignedCount g) g c f sol c2 f2 (le_refl _) hnd hr hrun
  exact ⟨hml.2.2.2.2.2.2.1, hml.2.2.2.2.2.2.2.1,
    hml.2.2.2.2.2.2.2.2.1, hml.2.2.2.2.2.2.2.2.2⟩

/-- C7 (witness): counter bounds on a fully assigned grid. -/
theorem c7_witness : (0 : ℕ) < 1 ∧ (1 : ℕ) ≤ 0 + 1 + unassignedCount Gfull ∧
    (0 : ℕ) ≤ 0 ∧ (0 : ℕ) ≤ 0 + 9 * (1 + unassignedCount Gfull) := by
  refine c7_counters Gfull 0 0 Gfull 1 0 (by decide) (by decide) ?_
  rw [← backtrackF_eq 1 Gfull 0 0 (by decide)]
  decide

/-- C8 (counterexample): rendering a grid that still contains an Unassigned
cell does not produce a blank character: it hits the `panic!` (modelled as
`none`).  The claim as stated is false. -/
theorem c8_counterexample :
    cellAt Pgrid 0 = .Unassigned nineList ∧ render Pgrid = none := by
  exact ⟨by decide, by decide⟩

/-- C8 (amended): rendering a fully assigned 81-cell grid with values 1..9
produces nine rows of nine characters joined by newlines; rendering any grid
with an in-range Unassigned cell panics instead of producing a blank. -/
theorem c8_render :
    (∀ g : Assignment, g.length = 81 →
      (∀ v ∈ g, ∃ w, v = .Assigned w ∧ 1 ≤ w ∧ w ≤ 9) →
      ∃ rows : List String, render g = some (joinRows rows) ∧ rows.length = 9 ∧
        ∀ s ∈ rows, s.length = 9) ∧
    (∀ (g : Assignment) (i : ℕ) (d : List ℕ), cellAt g i = .Unassigned d →
      i < g.length → render g = none) := by
  constructor
  · exact render_structure
  · intro g i d hc hi
    exact render_unassigned_none g 0 ⟨i, d, hc, hi⟩

/-- C8 (witness): the full grid renders to nine rows of nine characters, and
a grid with a blank first cell renders to the panic. -/
theorem c8_witness :
    (∃ rows : List String, render Gfull = some (joinRows rows) ∧ rows.length = 9 ∧
      ∀ s ∈ rows, s.length = 9) ∧ render g9grid = none := by
  constructor
  · refine c8_render.1 Gfull (by decide) ?_
    intro v hv
    obtain ⟨n, hn, he⟩ := List.mem_map.mp hv
    subst he
    exact ⟨n, rfl, ((by decide : ∀ m ∈ GfullDigits, 1 ≤ m ∧ m ≤ 9) n hn).1,
      ((by decide : ∀ m ∈ GfullDigits, 1 ≤ m ∧ m ≤ 9) n hn).2⟩
  · exact c8_render.2 g9grid 0 nineList (by decide) (by decide)

/-- C9 (counterexample): after guessing value 1 at cell 0 of a grid that also
holds the clue `(1, 5)`, the worklist `ac3` starts from is the reversed list
of all assigned pairs: it is not the single new pair and still contains the
old clue.  The claim as stated is false. -/
theorem c9_counterexample :
    ac3 (g9grid.set 0 (.Assigned 1)) =
      ac3Loop (g9grid.set 0 (.Assigned 1))
        ((assignedVariables (g9grid.set 0 (.Assigned 1))).reverse) ∧
    (assignedVariables (g9grid.set 0 (.Assigned 1))).reverse ≠ [(0, 1)] ∧
    (1, 5) ∈ (assignedVariables (g9grid.set 0 (.Assigned 1))).reverse := by
  exact ⟨rfl, by decide, by decide⟩

/-- C9 (amended): on every call, recursive ones included, `ac3` initialises
its worklist from `assigned_variables`, which contains every currently
Assigned `(index, value)` pair, not only the newly assigned one. -/
theorem c9_worklist (g : Assignment) (i v : ℕ) :
    ac3 g = ac3Loop g (assignedVariables g).reverse ∧
    (cellAt g i = .Assigned v → (i, v) ∈ (assignedVariables g).reverse) :=
  ⟨rfl, fun h => List.mem_reverse.mpr ((assignedVariables_mem g i v).mpr h)⟩

/-- C9 (witness): the old clue pair is in the worklist of the recursive
call's propagation. -/
theorem c9_witness : (1, 5) ∈ (assignedVariables (g9grid.set 0 (.Assigned 1))).reverse :=
  (c9_worklist (g9grid.set 0 (.Assigned 1)) 1 5).2 (by decide)

/-- C10 (confirmed): on a grid whose every cell is Assigned, `backtrack`
returns the grid unchanged as success, with `called` incremented by one and
`failed` unchanged, performing no consistency check. -/
theorem c10_full_grid (g : Assignment) (c f : ℕ)
    (hfull : ∀ i < g.length, ∃ v, cellAt g i = .Assigned v) :
    backtrack g c f = .ok (g, c + 1, f) :=
  backtrack_none g c f ((unassignedVariable_none_iff g).mpr hfull)

/-- C10 (witness): the invalid all-nines grid is returned unchanged as a
success. -/
theorem c10_witness :
    backtrack allNines 0 0 = .ok (allNines, 1, 0) ∧ ¬ ValidSudoku allNines :=
  ⟨c10_full_grid allNines 0 0
    (fun i hi => ⟨9, cellAt_replicate (Variable.Assigned 9) 81 i (by simpa using hi)⟩),
  by decide⟩

end Sudoku
